import Mathlib

/-!
Verification of the token-frequency index of `E17331Project2.c` (a word/character
frequency bar-chart program).  The C program is embedded shallowly:

* characters are modelled as their ASCII codes (`Int`);
* `preproccess` becomes a pure function on character lists;
* the trie (`trienode_t`) becomes an inductive tree with 36 optional children;
  the `root` pointers stored in heap entries are modelled by the token's
  character path (which uniquely identifies the trie node), so a pointer write
  `entry.root->heapId = v` becomes a functional update at that path;
* the global max-heap array (`frequencyHeap`), together with `size`,
  `totalWords` and `uniqueOccurrences`, becomes an explicit state record `S`;
  the growable array is a `List` (a `realloc` that doubles capacity preserves
  contents, so it is invisible functionally);
* out-of-bounds accesses that the C code can perform (child index outside
  `[0,36)`, heap access at index `-1`) are modelled with `Except CErr`.
-/

/-! ### Character classification (ASCII models of ctype.h) and `preproccess` -/

/-- ASCII model of `isalnum`. -/
def isalnumC (c : Int) : Bool :=
  (48 ≤ c && c ≤ 57) || (65 ≤ c && c ≤ 90) || (97 ≤ c && c ≤ 122)

/-- ASCII model of `isalpha`. -/
def isalphaC (c : Int) : Bool :=
  (65 ≤ c && c ≤ 90) || (97 ≤ c && c ≤ 122)

/-- ASCII model of `tolower`. -/
def tolowerC (c : Int) : Int :=
  if 65 ≤ c ∧ c ≤ 90 then c + 32 else c

/-- `preproccess` (sic) from the source: keep alphanumeric characters in order,
lowercasing letters; everything else is dropped (in C this is the in-place
compaction with `word[j++]`). -/
def preproccess (w : List Int) : List Int :=
  w.filterMap fun c =>
    if isalnumC c then (if isalphaC c then some (tolowerC c) else some c) else none

/-- A character of the 36-symbol alphabet that the trie supports. -/
def validChar (c : Int) : Prop := (97 ≤ c ∧ c ≤ 122) ∨ (48 ≤ c ∧ c ≤ 57)

instance (c : Int) : Decidable (validChar c) := by unfold validChar; infer_instance

/-- A token all of whose characters lie in the 36-symbol alphabet. -/
def validTok (w : List Int) : Prop := ∀ c ∈ w, validChar c

instance (w : List Int) : Decidable (validTok w) := by
  unfold validTok; exact List.decidableBAll _ w

/-! ### The trie (`trienode_t`) -/

/-- Errors of the model: both stand for out-of-bounds memory accesses that the
C code performs (undefined behaviour); the model stops there. -/
inductive CErr : Type where
  | oobChild : CErr
  | oobHeap : CErr
deriving DecidableEq

/-- `trienode_t`: leaf flag, leaf frequency, heap back-pointer (`-1` when
unassigned) and 36 optional children. -/
inductive Trienode : Type where
  | mk : Bool → Nat → Int → (Fin 36 → Option Trienode) → Trienode

def Trienode.isLeaf : Trienode → Bool | .mk b _ _ _ => b
def Trienode.frequency : Trienode → Nat | .mk _ f _ _ => f
def Trienode.heapId : Trienode → Int | .mk _ _ h _ => h
def Trienode.children : Trienode → (Fin 36 → Option Trienode) | .mk _ _ _ c => c

/-- `createNewNode`. -/
def createNewNode : Trienode := .mk false 0 (-1) fun _ => none

/-- The child-index computation of `insert`:
`if (c >= 'a') c -= 'a'; else c -= '0' - 26;`. -/
def childIndex (c : Int) : Int := if 97 ≤ c then c - 97 else c - 22

/-- The child index as an index into the 36-slot children array, given that it
is in bounds. -/
def cFin (c : Int) (h : 0 ≤ childIndex c ∧ childIndex c < 36) : Fin 36 :=
  ⟨(childIndex c).toNat, (Int.toNat_lt' (by decide)).mpr h.2⟩

/-- The trie part of `insert`: walk down `w` creating missing nodes
(`createNewNode` for a `NULL` child), and perform the leaf update at the end
(`frequency++` if already a leaf, else become a leaf with frequency 1).
A child index outside `[0,36)` is an out-of-bounds array access in C. -/
def trieAdd (r : Option Trienode) (w : List Int) : Except CErr Trienode :=
  let nd := r.getD createNewNode
  match w with
  | [] => .ok (.mk true (if nd.isLeaf then nd.frequency + 1 else 1) nd.heapId nd.children)
  | c :: cs =>
    if h : 0 ≤ childIndex c ∧ childIndex c < 36 then
      match trieAdd (nd.children (cFin c h)) cs with
      | .ok child => .ok (.mk nd.isLeaf nd.frequency nd.heapId
          fun j => if j = cFin c h then some child else nd.children j)
      | .error e => .error e
    else .error .oobChild

/-- Pure lookup of the node at path `w` (models following the pointer that the
C code keeps to that node). -/
def trieFind (r : Option Trienode) (w : List Int) : Option Trienode :=
  match r, w with
  | none, _ => none
  | some t, [] => some t
  | some t, c :: cs =>
    if h : 0 ≤ childIndex c ∧ childIndex c < 36 then
      trieFind (t.children (cFin c h)) cs
    else none

/-- Model of the pointer write `node->heapId = v` where `node` is the trie node
of token `w`: rewrite the `heapId` field at path `w`, leaving everything else
unchanged (a no-op if the path does not exist; in the C program the pointer is
only stored for existing nodes). -/
def trieSetHeapId (r : Option Trienode) (w : List Int) (v : Int) : Option Trienode :=
  match r, w with
  | none, _ => none
  | some t, [] => some (.mk t.isLeaf t.frequency v t.children)
  | some t, c :: cs =>
    if h : 0 ≤ childIndex c ∧ childIndex c < 36 then
      some (.mk t.isLeaf t.frequency t.heapId
        fun j => if j = cFin c h then trieSetHeapId (t.children (cFin c h)) cs v
          else t.children j)
    else r

/-- The observable fields (`isLeaf`, `frequency`, `heapId`) of the node at path
`w`, if it exists. -/
def nodeInfo (r : Option Trienode) (w : List Int) : Option (Bool × Nat × Int) :=
  (trieFind r w).map fun nd => (nd.isLeaf, nd.frequency, nd.heapId)

/-! ### The heap (`word_t`, `frequencyHeap`) -/

/-- `word_t`.  The `root` pointer of the C struct is represented by the token
path `word` itself (each distinct token corresponds to exactly one trie node,
namely the one at its character path). -/
structure Wordt where
  word : List Int
  frequency : Nat
  occurredAt : Nat
deriving DecidableEq

/-- Heap read `frequencyHeap[i]` (all reads the program performs on reachable
states are within bounds; the default is irrelevant there). -/
def hget (l : List Wordt) (i : Nat) : Wordt := l.getD i ⟨[], 0, 0⟩

/-- `swap(&frequencyHeap[i], &frequencyHeap[j])`. -/
def hswap (l : List Wordt) (i j : Nat) : List Wordt :=
  (l.set i (hget l j)).set j (hget l i)

/-- The priority comparison used by both sifts: `a` ranks strictly above `b`
iff `a.frequency > b.frequency`, or frequencies are equal and `a` occurred
earlier. -/
def beats (a b : Wordt) : Prop :=
  b.frequency < a.frequency ∨ (a.frequency = b.frequency ∧ a.occurredAt < b.occurredAt)

instance (a b : Wordt) : Decidable (beats a b) := by unfold beats; infer_instance

/-- The max-heap property on the first `n` slots: no entry ranks strictly above
its parent (equivalently, no entry ranks below either of its children). -/
def heapProp (l : List Wordt) (n : Nat) : Prop :=
  ∀ j, 0 < j → j < n → ¬ beats (hget l j) (hget l ((j - 1) / 2))

/-- The program state: the trie root, the heap array (`frequencyHeap`), its
logical size (`size`) and the two counters.  `main` allocates the root with a
bare `malloc`; it is modelled as the not-yet-created node, which `insert`
initialises on first use. -/
structure S where
  root : Option Trienode
  heap : List Wordt
  size : Nat
  totalWords : Nat
  uniqueOccurrences : Nat

def initS : S := { root := none, heap := [], size := 0, totalWords := 0, uniqueOccurrences := 0 }

/-- The loop body of `siftUp(i)`, together with the two back-pointer writes it
performs before each swap (`frequencyHeap[parent(i)].root->heapId = i;
frequencyHeap[i].root->heapId = parent(i);`).  The loop index strictly
decreases, so `fuel` iterations suffice whenever `i ≤ fuel` (the recursion is
on this bound to keep the definition kernel-computable). -/
def siftUpAux : Nat → Option Trienode → List Wordt → Nat → Option Trienode × List Wordt
  | 0, t, l, _ => (t, l)
  | fuel + 1, t, l, i =>
    if 0 < i ∧ beats (hget l i) (hget l ((i - 1) / 2)) then
      let p := (i - 1) / 2
      let t1 := trieSetHeapId t (hget l p).word (i : Int)
      let t2 := trieSetHeapId t1 (hget l i).word (p : Int)
      siftUpAux fuel t2 (hswap l p i) p
    else (t, l)

/-- `siftUp(i)` on trie `t` and heap array `l`. -/
def siftUpT (t : Option Trienode) (l : List Wordt) (i : Nat) : Option Trienode × List Wordt :=
  siftUpAux i t l i

/-- One comparison step of `siftDown`'s max-child selection:
`if (heap[b] beats heap[a]) maxIndex = b;`. -/
def dMax (l : List Wordt) (a b : Nat) : Nat :=
  if beats (hget l b) (hget l a) then b else a

/-- The recursion of `siftDown(i)` with logical size `m`: note the source's
boundary test `if (left > size || right > size) return;` and that no
back-pointers are updated here.  The index strictly increases at each
recursive call and the recursion stops once `2*i+2 > m`, so `fuel` steps
suffice whenever `m + 1 - i ≤ fuel` (the recursion is on this bound to keep
the definition kernel-computable). -/
def siftDownAux : Nat → List Wordt → Nat → Nat → List Wordt
  | 0, l, _, _ => l
  | fuel + 1, l, m, i =>
    if 2 * i + 1 > m ∨ 2 * i + 2 > m then l
    else
      let mi := dMax l (dMax l i (2 * i + 1)) (2 * i + 2)
      if i = mi then l else siftDownAux fuel (hswap l i mi) m mi

/-- `siftDown(i)` on heap array `l` with logical size `m`. -/
def siftDownL (l : List Wordt) (m i : Nat) : List Wordt :=
  siftDownAux (m + 1) l m i

/-- `insert` = trie descent + `insertToHeap`.  `insertToHeap` increments
`totalWords`, then either bumps the existing entry's frequency and sifts it up
(`heapId != -1`), or appends a fresh entry with the node's frequency and the
next `occurredAt` rank, stores the back-pointer, and sifts up from the old
`size` (`siftUp(size++)`). -/
def insertModel (s : S) (w : List Int) : Except CErr S :=
  match trieAdd s.root w with
  | .error e => .error e
  | .ok t1 =>
    match trieFind (some t1) w with
    | none => .error .oobChild
    | some nd =>
      if nd.heapId ≠ -1 then
        let k := nd.heapId.toNat
        let e := hget s.heap k
        let l1 := s.heap.set k ⟨e.word, e.frequency + 1, e.occurredAt⟩
        let r := siftUpT (some t1) l1 k
        .ok { root := r.1, heap := r.2, size := s.size,
              totalWords := s.totalWords + 1, uniqueOccurrences := s.uniqueOccurrences }
      else
        let entry : Wordt := ⟨w, nd.frequency, s.uniqueOccurrences⟩
        let l1 := s.heap ++ [entry]
        let t2 := trieSetHeapId (some t1) w (s.size : Int)
        let r := siftUpT t2 l1 s.size
        .ok { root := r.1, heap := r.2, size := s.size + 1,
              totalWords := s.totalWords + 1, uniqueOccurrences := s.uniqueOccurrences + 1 }

/-- `extractMax()`: with `size == 0` the statement
`frequencyHeap[0] = frequencyHeap[--size]` reads `frequencyHeap[-1]` — an
out-of-bounds access (the function performs no emptiness check). -/
def extractMaxModel (s : S) : Except CErr (Wordt × S) :=
  if s.size = 0 then .error .oobHeap
  else
    let result := hget s.heap 0
    let sz := s.size - 1
    let l1 := s.heap.set 0 (hget s.heap sz)
    .ok (result, { s with heap := siftDownL l1 sz 0, size := sz })

/-- `k` successive `extractMax()` calls collecting the results in order
(the extraction loop of `main`). -/
def extractTop (s : S) : Nat → Except CErr (List Wordt × S)
  | 0 => .ok ([], s)
  | k + 1 =>
    match extractMaxModel s with
    | .error e => .error e
    | .ok (w, s1) =>
      match extractTop s1 k with
      | .error e => .error e
      | .ok (ws, s2) => .ok (w :: ws, s2)

/-- Feeding a list of tokens to `insert` one by one. -/
def ingestAll (s : S) : List (List Int) → Except CErr S
  | [] => .ok s
  | w :: ws =>
    match insertModel s w with
    | .error e => .error e
    | .ok s1 => ingestAll s1 ws

/-- One iteration of `main`'s reading loop on an already-read raw token:
`preproccess(word); if (strlen(word)) insert(&root, word, word);`. -/
def processToken (s : S) (w : List Int) : Except CErr S :=
  let w1 := preproccess w
  if w1.length ≠ 0 then insertModel s w1 else .ok s

/-! ### Specification-side bookkeeping -/

/-- The distinct tokens of `ps` in order of first occurrence. -/
def firstOccs (ps : List (List Int)) : List (List Int) :=
  ps.foldl (fun acc w => if w ∈ acc then acc else acc ++ [w]) []

/-- The expected heap contents after ingesting `ps`: one triple
(token, total frequency, first-occurrence rank) per distinct token. -/
def tally (ps : List (List Int)) : List (List Int × Nat × Nat) :=
  (firstOccs ps).enum.map fun p => (p.2, ps.count p.2, p.1)

/-! ### Invariants -/

/-- Precondition of `siftUp(i)` on an array of length `n`: the heap property
holds except possibly on the edge from `i` to its parent, and the children of
`i` do not rank above `i`'s parent. -/
def siftUpInv (l : List Wordt) (n i : Nat) : Prop :=
  (∀ j, 0 < j → j < n → j ≠ i → ¬ beats (hget l j) (hget l ((j - 1) / 2))) ∧
  (∀ j, 0 < j → j < n → (j - 1) / 2 = i → ¬ beats (hget l j) (hget l ((i - 1) / 2)))

/-- Precondition of `siftDown(i)` with logical size `m`: the heap property
holds except possibly on the edges from the children of `i` to `i`, and (when
`i` is not the root) the children of `i` do not rank above `i`'s parent. -/
def siftDownInv (l : List Wordt) (m i : Nat) : Prop :=
  (∀ j, 0 < j → j < m → (j - 1) / 2 ≠ i → ¬ beats (hget l j) (hget l ((j - 1) / 2))) ∧
  (0 < i → ∀ j, 0 < j → j < m → (j - 1) / 2 = i → ¬ beats (hget l j) (hget l ((i - 1) / 2)))

/-- The ingestion invariant tying a state `s` to the list `ps` of tokens
ingested so far (all from the 36-symbol alphabet).

* `hlen`–`htw`: the array is full up to `size`, one slot per distinct token;
  the counters count distinct tokens and all ingest calls respectively.
* `hdata`: the heap entries are a permutation of one entry per distinct token
  carrying its total count and its first-occurrence rank.
* `hvalid`, `hcoh`: every entry's token is valid and its trie node is a leaf
  whose `heapId` is exactly the entry's current slot (the back-pointer
  invariant).
* `hfresh`: a valid token not yet ingested has no trie node, or a non-leaf
  node with `heapId = -1`.
* `hheap`: the max-heap property. -/
structure IngestInv (s : S) (ps : List (List Int)) : Prop where
  hlen : s.heap.length = s.size
  hsize : s.size = (firstOccs ps).length
  huo : s.uniqueOccurrences = (firstOccs ps).length
  htw : s.totalWords = ps.length
  hdata : (s.heap.map fun e => (e.word, e.frequency, e.occurredAt)).Perm (tally ps)
  hvalid : ∀ k, k < s.size → validTok (hget s.heap k).word
  hcoh : ∀ k, k < s.size →
    ∃ f, nodeInfo s.root ((hget s.heap k).word) = some (true, f, (k : Int))
  hfresh : ∀ w, validTok w → w ∉ firstOccs ps →
    nodeInfo s.root w = none ∨ ∃ f, nodeInfo s.root w = some (false, f, -1)
  hheap : heapProp s.heap s.size

/-! ### Theorems: `preproccess` (C10) -/

theorem isalnumC_iff (c : Int) :
    isalnumC c = true ↔ (48 ≤ c ∧ c ≤ 57) ∨ (65 ≤ c ∧ c ≤ 90) ∨ (97 ≤ c ∧ c ≤ 122) := by
  simp [isalnumC, Bool.and_eq_true, Bool.or_eq_true, decide_eq_true_eq, or_assoc]

theorem isalphaC_iff (c : Int) :
    isalphaC c = true ↔ (65 ≤ c ∧ c ≤ 90) ∨ (97 ≤ c ∧ c ≤ 122) := by
  simp [isalphaC, Bool.and_eq_true, Bool.or_eq_true, decide_eq_true_eq]

theorem preproccess_char (c : Int) :
    (if isalnumC c then (if isalphaC c then some (tolowerC c) else some c) else none)
      = if isalnumC c then some (tolowerC c) else none := by
  by_cases h1 : isalnumC c = true
  · by_cases h2 : isalphaC c = true
    · simp [h1, h2]
    · have hd : tolowerC c = c := by
        rw [isalnumC_iff] at h1
        have h2' : ¬ ((65 ≤ c ∧ c ≤ 90) ∨ (97 ≤ c ∧ c ≤ 122)) := by
          rw [← isalphaC_iff]; simpa using h2
        unfold tolowerC
        rw [if_neg (by omega)]
      simp [h1, h2, hd]
  · simp [h1]

theorem preproccess_eq_filter_map (w : List Int) :
    preproccess w = (w.filter fun c => isalnumC c).map tolowerC := by
  induction w with
  | nil => rfl
  | cons c cs ih =>
    unfold preproccess at *
    rw [List.filterMap_cons, preproccess_char, List.filter_cons]
    by_cases h : isalnumC c = true
    · simp only [h, if_true, ih, List.map_cons]
    · simp only [h, if_false, ih]
      simp [h]

theorem validChar_of_mem_preproccess (w : List Int) :
    ∀ c ∈ preproccess w, validChar c := by
  intro c hc
  rw [preproccess_eq_filter_map] at hc
  obtain ⟨d, hd, rfl⟩ := List.mem_map.mp hc
  have hd' := List.of_mem_filter hd
  rw [isalnumC_iff] at hd'
  unfold tolowerC validChar
  split <;> omega

theorem preproccess_fix_of_valid (w : List Int) (h : validTok w) :
    preproccess w = w := by
  induction w with
  | nil => rfl
  | cons c cs ih =>
    have hc : validChar c := h c (by simp)
    have halnum : isalnumC c = true := by rw [isalnumC_iff]; unfold validChar at hc; omega
    have hlow : tolowerC c = c := by
      unfold validChar at hc; unfold tolowerC; rw [if_neg (by omega)]
    unfold preproccess
    rw [List.filterMap_cons, preproccess_char, if_pos halnum, hlow]
    have := ih (fun d hd => h d (by simp [hd]))
    unfold preproccess at this
    rw [this]

/-- C10: `preproccess` keeps exactly the alphanumeric characters, in order,
lowercased (on ASCII input), so its output lies in the 36-symbol alphabet, and
it is idempotent. -/
theorem preproccess_alnum_lower_idempotent (w : List Int)
    (h : ∀ c ∈ w, 0 ≤ c ∧ c ≤ 127) :
    validTok (preproccess w) ∧
    preproccess w = (w.filter fun c => isalnumC c).map tolowerC ∧
    preproccess (preproccess w) = preproccess w := by
  refine ⟨validChar_of_mem_preproccess w, preproccess_eq_filter_map w, ?_⟩
  exact preproccess_fix_of_valid _ (validChar_of_mem_preproccess w)

/-- Witness for C10 at the concrete input "Ab3!_z". -/
theorem preproccess_alnum_lower_idempotent_witness :
    (∀ c ∈ [(65 : Int), 98, 51, 33, 95, 122], 0 ≤ c ∧ c ≤ 127) ∧
    (validTok (preproccess [(65 : Int), 98, 51, 33, 95, 122]) ∧
      preproccess [(65 : Int), 98, 51, 33, 95, 122]
        = (([(65 : Int), 98, 51, 33, 95, 122].filter fun c => isalnumC c).map tolowerC) ∧
      preproccess (preproccess [(65 : Int), 98, 51, 33, 95, 122])
        = preproccess [(65 : Int), 98, 51, 33, 95, 122]) :=
  ⟨by decide, preproccess_alnum_lower_idempotent _ (by decide)⟩

/-! ### Theorems: concrete scenarios and error behaviour (C5–C9, C4 counterexample) -/

/-- C5: ingesting the tokens "b", "a", "b", "a" (codes 98 and 97) and then
extracting the top 2 yields ("b",2) first and ("a",2) second — equal
frequencies, earlier-seen token first. -/
theorem tie_break_b_a_b_a :
    (extractTop ((ingestAll initS [[98], [97], [98], [97]]).toOption.getD initS) 2).toOption.map
        (fun p => p.1.map fun e => (e.word, e.frequency))
      = some [([98], 2), ([97], 2)] := by
  decide

/-- C6: `extractMax` on the empty structure performs no `EmptyStructure`
check; `frequencyHeap[0] = frequencyHeap[--size]` reads index `-1`, an
out-of-bounds access (and `size` would become `-1`). -/
theorem extractMax_empty_oob : extractMaxModel initS = .error .oobHeap := rfl

/-- C7: with a single distinct token ingested, extracting the top 2 is not
rejected up front with `InsufficientDistinctTokens`: the first extraction
succeeds (mutating the structure) and the second performs the out-of-bounds
read of `extractMax` on an empty structure.  Extracting the top 0 yields the
empty sequence. -/
theorem extractTop_exceeds_distinct_oob :
    extractTop ((ingestAll initS [[97]]).toOption.getD initS) 2 = .error .oobHeap ∧
    (extractTop ((ingestAll initS [[97]]).toOption.getD initS) 1).toOption.map
        (fun p => p.1.map fun e => (e.word, e.frequency)) = some [([97], 1)] ∧
    extractTop ((ingestAll initS [[97]]).toOption.getD initS) 0
      = .ok ([], (ingestAll initS [[97]]).toOption.getD initS) := by
  refine ⟨rfl, by decide, rfl⟩

/-- C8 counterexample: ingesting the one-character token "~" (code 126, outside
`[a-z0-9]`) does not fail with `InvalidSymbol`: `insert` maps it to child slot
29 (aliasing the digit '3') and ingests it, changing both counters. -/
theorem ingest_tilde_succeeds_changes_counts :
    (ingestAll initS [[126]]).toOption.map S.totalWords = some 1 ∧
    (ingestAll initS [[126]]).toOption.map S.uniqueOccurrences = some 1 := by
  refine ⟨rfl, rfl⟩

/-- C8 amended: `insert` performs no alphabet validation.  A character whose
computed child index falls outside `[0,36)` (e.g. 'A', index 43) causes an
out-of-bounds array access; a character whose index falls inside (e.g. '~',
index 29) is silently ingested as if it were a valid alphabet symbol, and the
counters change. -/
theorem insert_no_alphabet_validation :
    ingestAll initS [[65]] = .error .oobChild ∧
    childIndex 65 = 43 ∧ childIndex 126 = 29 ∧
    (ingestAll initS [[126]]).toOption.map S.totalWords = some 1 := by
  refine ⟨rfl, rfl, rfl, rfl⟩

/-- C9 counterexample: `insert` called directly on a zero-length token is not
a no-op: it turns the root into a leaf and registers the empty token, so
`totalWords`, `uniqueOccurrences` and the heap all change. -/
theorem insert_empty_token_not_noop :
    (insertModel initS []).toOption.map S.totalWords = some 1 ∧
    (insertModel initS []).toOption.map S.uniqueOccurrences = some 1 ∧
    (insertModel initS []).toOption.map (fun s => s.heap.length) = some 1 := by
  refine ⟨rfl, rfl, rfl⟩

/-- C9 amended: zero-length tokens are no-ops at the program level because
`main` checks `strlen(word)` after `preproccess` and never calls `insert` on
an empty token. -/
theorem processToken_empty_noop (s : S) (w : List Int) (h : preproccess w = []) :
    processToken s w = .ok s := by
  unfold processToken
  simp [h]

/-- Witness for `processToken_empty_noop`: the raw token "!" normalises to the
empty token and is skipped. -/
theorem processToken_empty_noop_witness :
    preproccess [(33 : Int)] = [] ∧ processToken initS [(33 : Int)] = .ok initS :=
  ⟨by decide, processToken_empty_noop initS [(33 : Int)] (by decide)⟩

/-- C4 counterexample: ingest "a","b","c" (codes 97, 98, 99) once each, then
extract once.  `extractMax`'s `siftDown` swaps slots 0 and 1 without updating
the `heapId` back-pointers, so afterwards slot 0 holds "b" while the trie node
of "b" still records `heapId = 1`. -/
theorem siftDown_leaves_stale_backpointer :
    (extractTop ((ingestAll initS [[97], [98], [99]]).toOption.getD initS) 1).toOption.map
        (fun p => ((hget p.2.heap 0).word,
          (nodeInfo p.2.root ((hget p.2.heap 0).word)).map fun x => x.2.2))
      = some ([98], some 1) := by
  decide

/-! ### Order lemmas for `beats` -/

theorem beats_irrefl (a : Wordt) : ¬ beats a a := by unfold beats; omega

theorem beats_asymm {a b : Wordt} (h : beats a b) : ¬ beats b a := by
  unfold beats at *; omega

theorem beats_trans {a b c : Wordt} (h1 : beats a b) (h2 : beats b c) : beats a c := by
  unfold beats at *; omega

theorem not_beats_trans {a b c : Wordt} (h1 : ¬ beats b a) (h2 : ¬ beats c b) :
    ¬ beats c a := by
  unfold beats at *; omega

theorem not_beats_bump {a b : Wordt} (h : ¬ beats a b) :
    ¬ beats a ⟨b.word, b.frequency + 1, b.occurredAt⟩ := by
  unfold beats at *; dsimp only at *; omega

/-! ### Array access lemmas -/

theorem hget_cons_zero (a : Wordt) (t : List Wordt) : hget (a :: t) 0 = a := rfl

theorem hget_cons_succ (a : Wordt) (t : List Wordt) (k : Nat) :
    hget (a :: t) (k + 1) = hget t k := rfl

theorem hget_set_self (l : List Wordt) (i : Nat) (x : Wordt) (h : i < l.length) :
    hget (l.set i x) i = x := by
  unfold hget
  rw [List.getD_eq_getElem?_getD]
  simp [List.getElem?_set_self, h]

theorem hget_set_ne (l : List Wordt) (i j : Nat) (x : Wordt) (h : i ≠ j) :
    hget (l.set i x) j = hget l j := by
  unfold hget
  rw [List.getD_eq_getElem?_getD, List.getD_eq_getElem?_getD, List.getElem?_set_ne h]

theorem hget_append_left (l l2 : List Wordt) (i : Nat) (h : i < l.length) :
    hget (l ++ l2) i = hget l i := by
  unfold hget
  rw [List.getD_eq_getElem?_getD, List.getD_eq_getElem?_getD, List.getElem?_append_left h]

theorem hget_append_length (l : List Wordt) (x : Wordt) :
    hget (l ++ [x]) l.length = x := by
  unfold hget
  rw [List.getD_eq_getElem?_getD]
  simp

theorem length_hswap (l : List Wordt) (i j : Nat) : (hswap l i j).length = l.length := by
  simp [hswap]

theorem hget_hswap (l : List Wordt) (i j k : Nat) (hi : i < l.length) (hj : j < l.length) :
    hget (hswap l i j) k = if k = j then hget l i else if k = i then hget l j else hget l k := by
  unfold hswap
  by_cases hkj : k = j
  · subst hkj
    rw [if_pos rfl, hget_set_self _ _ _ (by simpa using hj)]
  · rw [if_neg hkj, hget_set_ne _ _ _ _ (fun hh => hkj hh.symm)]
    by_cases hki : k = i
    · subst hki
      rw [if_pos rfl, hget_set_self _ _ _ hi]
    · rw [if_neg hki, hget_set_ne _ _ _ _ (fun hh => hki hh.symm)]

theorem cons_eraseIdx_perm :
    ∀ (l : List Wordt) (i : Nat), i < l.length → l.Perm (hget l i :: l.eraseIdx i)
  | [], i, hi => absurd hi (by simp)
  | a :: t, 0, _ => by simp [hget_cons_zero]
  | a :: t, i + 1, h => by
    have ih := cons_eraseIdx_perm t i (by simpa using h)
    rw [hget_cons_succ, List.eraseIdx_cons_succ]
    exact (ih.cons a).trans (List.Perm.swap (hget t i) a _)

theorem set_perm :
    ∀ (l : List Wordt) (i : Nat) (x : Wordt), i < l.length → (l.set i x).Perm (x :: l.eraseIdx i)
  | [], i, x, hi => absurd hi (by simp)
  | a :: t, 0, x, _ => by simp
  | a :: t, i + 1, x, h => by
    have ih := set_perm t i x (by simpa using h)
    rw [List.set_cons_succ, List.eraseIdx_cons_succ]
    exact (ih.cons a).trans (List.Perm.swap x a _)

theorem hswap_perm :
    ∀ (l : List Wordt) (i j : Nat), i < l.length → j < l.length → (hswap l i j).Perm l
  | [], i, j, hi, _ => absurd hi (by simp)
  | a :: t, 0, 0, _, _ => by simp [hswap, hget_cons_zero]
  | a :: t, 0, j + 1, hi, hj => by
    unfold hswap
    rw [hget_cons_succ, hget_cons_zero, List.set_cons_zero, List.set_cons_succ]
    have hjt : j < t.length := by simpa using hj
    refine ((set_perm t j a hjt).cons _).trans ?_
    exact (List.Perm.swap a (hget t j) _).trans ((cons_eraseIdx_perm t j hjt).cons a).symm
  | a :: t, i + 1, 0, hi, hj => by
    unfold hswap
    rw [hget_cons_succ, hget_cons_zero, List.set_cons_succ, List.set_cons_zero]
    have hit : i < t.length := by simpa using hi
    refine ?_
    have s1 := (set_perm t i a hit).cons (hget t i)
    exact s1.trans ((List.Perm.swap a (hget t i) _).trans ((cons_eraseIdx_perm t i hit).cons a).symm)
  | a :: t, i + 1, j + 1, hi, hj => by
    have ih := hswap_perm t i j (by simpa using hi) (by simpa using hj)
    unfold hswap at *
    rw [hget_cons_succ, hget_cons_succ, List.set_cons_succ, List.set_cons_succ]
    exact ih.cons a

/-! ### Trie lemmas -/

theorem validChar_childIndex {c : Int} (h : validChar c) :
    0 ≤ childIndex c ∧ childIndex c < 36 := by
  unfold validChar childIndex at *; split <;> omega

theorem childIndex_inj {c c' : Int} (h : validChar c) (h' : validChar c')
    (he : childIndex c = childIndex c') : c = c' := by
  unfold validChar childIndex at *
  split at he <;> split at he <;> omega

theorem cFin_eq_iff {c c' : Int} (hb : 0 ≤ childIndex c ∧ childIndex c < 36)
    (hb' : 0 ≤ childIndex c' ∧ childIndex c' < 36) :
    cFin c hb = cFin c' hb' ↔ childIndex c = childIndex c' := by
  unfold cFin
  rw [Fin.mk.injEq]
  omega

theorem trieFind_none (w : List Int) : trieFind none w = none := by cases w <;> rfl

theorem nodeInfo_none (w : List Int) : nodeInfo none w = none := by
  rw [nodeInfo, trieFind_none]; rfl

theorem trieFind_cons (t : Trienode) (c : Int) (cs : List Int)
    (h : 0 ≤ childIndex c ∧ childIndex c < 36) :
    trieFind (some t) (c :: cs) = trieFind (t.children (cFin c h)) cs := by
  show (if h' : 0 ≤ childIndex c ∧ childIndex c < 36 then
    trieFind (t.children (cFin c h')) cs else none) = _
  rw [dif_pos h]

theorem trieSetHeapId_none (w : List Int) (v : Int) : trieSetHeapId none w v = none := by
  cases w <;> rfl

theorem trieSetHeapId_cons (t : Trienode) (c : Int) (cs : List Int) (v : Int)
    (h : 0 ≤ childIndex c ∧ childIndex c < 36) :
    trieSetHeapId (some t) (c :: cs) v
      = some (.mk t.isLeaf t.frequency t.heapId
          fun j => if j = cFin c h then trieSetHeapId (t.children (cFin c h)) cs v
            else t.children j) := by
  show (if h' : 0 ≤ childIndex c ∧ childIndex c < 36 then
    some (.mk t.isLeaf t.frequency t.heapId
      fun j => if j = cFin c h' then trieSetHeapId (t.children (cFin c h')) cs v
        else t.children j) else some t) = _
  rw [dif_pos h]

theorem nodeInfo_mk_nil (b : Bool) (f : Nat) (hid : Int) (ch : Fin 36 → Option Trienode) :
    nodeInfo (some (.mk b f hid ch)) [] = some (b, f, hid) := rfl

theorem nodeInfo_mk_cons (b : Bool) (f : Nat) (hid : Int) (ch : Fin 36 → Option Trienode)
    (c : Int) (cs : List Int) (h : 0 ≤ childIndex c ∧ childIndex c < 36) :
    nodeInfo (some (.mk b f hid ch)) (c :: cs) = nodeInfo (ch (cFin c h)) cs := by
  unfold nodeInfo
  rw [trieFind_cons _ _ _ h]
  rfl

theorem nodeInfo_setHeapId_self :
    ∀ (r : Option Trienode) (w : List Int) (v : Int), validTok w →
      nodeInfo (trieSetHeapId r w v) w = (nodeInfo r w).map fun x => (x.1, x.2.1, v)
  | none, w, v, _ => by rw [trieSetHeapId_none, nodeInfo_none]; rfl
  | some t, [], v, _ => by
    obtain ⟨b, f, hid, ch⟩ := t
    rfl
  | some t, c :: cs, v, hw => by
    have hb := validChar_childIndex (hw c (by simp))
    have ih := nodeInfo_setHeapId_self (t.children (cFin c hb)) cs v
      (fun d hd => hw d (by simp [hd]))
    rw [trieSetHeapId_cons t c cs v hb, nodeInfo_mk_cons _ _ _ _ _ _ hb, if_pos rfl, ih]
    unfold nodeInfo
    rw [trieFind_cons t c cs hb]

theorem nodeInfo_setHeapId_ne :
    ∀ (r : Option Trienode) (w w' : List Int) (v : Int), validTok w → validTok w' → w' ≠ w →
      nodeInfo (trieSetHeapId r w v) w' = nodeInfo r w'
  | none, w, w', v, _, _, _ => by rw [trieSetHeapId_none]
  | some t, [], w', v, _, _, hne => by
    cases w' with
    | nil => exact absurd rfl hne
    | cons c' cs' =>
      obtain ⟨b, f, hid, ch⟩ := t
      show nodeInfo (some (.mk b f v ch)) (c' :: cs') = nodeInfo (some (.mk b f hid ch)) (c' :: cs')
      by_cases hb' : 0 ≤ childIndex c' ∧ childIndex c' < 36
      · rw [nodeInfo_mk_cons _ _ _ _ _ _ hb', nodeInfo_mk_cons _ _ _ _ _ _ hb']
      · unfold nodeInfo trieFind
        rw [dif_neg hb', dif_neg hb']
  | some t, c :: cs, w', v, hw, hw', hne => by
    have hb := validChar_childIndex (hw c (by simp))
    rw [trieSetHeapId_cons t c cs v hb]
    cases w' with
    | nil =>
      obtain ⟨b, f, hid, ch⟩ := t
      rfl
    | cons c' cs' =>
      have hb' := validChar_childIndex (hw' c' (by simp))
      rw [nodeInfo_mk_cons _ _ _ _ _ _ hb']
      show _ = nodeInfo (some t) (c' :: cs')
      unfold nodeInfo
      rw [trieFind_cons t c' cs' hb']
      by_cases hcc : cFin c' hb' = cFin c hb
      · have hc : c' = c :=
          childIndex_inj (hw' c' (by simp)) (hw c (by simp)) ((cFin_eq_iff hb' hb).mp hcc)
        subst hc
        have hcs : cs' ≠ cs := fun hh => hne (by rw [hh])
        rw [if_pos hcc]
        have := nodeInfo_setHeapId_ne (t.children (cFin c' hb)) cs cs' v
          (fun d hd => hw d (by simp [hd])) (fun d hd => hw' d (by simp [hd])) hcs
        unfold nodeInfo at this
        have hfi : cFin c' hb' = cFin c' hb := hcc
        rw [hfi]
        exact this
      · rw [if_neg hcc]

theorem trieAdd_nil (r : Option Trienode) :
    trieAdd r [] = .ok (.mk true
      (if (r.getD createNewNode).isLeaf then (r.getD createNewNode).frequency + 1 else 1)
      (r.getD createNewNode).heapId (r.getD createNewNode).children) := rfl

theorem trieAdd_cons_ok (r : Option Trienode) (c : Int) (cs : List Int) (child : Trienode)
    (h : 0 ≤ childIndex c ∧ childIndex c < 36)
    (hrec : trieAdd ((r.getD createNewNode).children (cFin c h)) cs = .ok child) :
    trieAdd r (c :: cs) = .ok (.mk (r.getD createNewNode).isLeaf
      (r.getD createNewNode).frequency (r.getD createNewNode).heapId
      fun j => if j = cFin c h then some child else (r.getD createNewNode).children j) := by
  rw [trieAdd, dif_pos h, hrec]

theorem trieAdd_cons_shape (r : Option Trienode) (c : Int) (cs : List Int) (t' : Trienode)
    (h : 0 ≤ childIndex c ∧ childIndex c < 36)
    (hok : trieAdd r (c :: cs) = .ok t') :
    ∃ child, trieAdd ((r.getD createNewNode).children (cFin c h)) cs = .ok child ∧
      t' = .mk (r.getD createNewNode).isLeaf (r.getD createNewNode).frequency
        (r.getD createNewNode).heapId
        fun j => if j = cFin c h then some child else (r.getD createNewNode).children j := by
  rcases hrec : trieAdd ((r.getD createNewNode).children (cFin c h)) cs with e | child
  · rw [trieAdd] at hok
    rw [dif_pos h] at hok
    rw [hrec] at hok
    exact absurd hok (by simp)
  · refine ⟨child, rfl, ?_⟩
    rw [trieAdd_cons_ok r c cs child h hrec] at hok
    exact (Except.ok.injEq _ _ |>.mp hok).symm

theorem trieAdd_ok : ∀ (r : Option Trienode) (w : List Int), validTok w →
    ∃ t', trieAdd r w = .ok t'
  | r, [], _ => ⟨_, trieAdd_nil r⟩
  | r, c :: cs, hw => by
    have hb := validChar_childIndex (hw c (by simp))
    obtain ⟨child, hc⟩ := trieAdd_ok ((r.getD createNewNode).children (cFin c hb)) cs
      (fun d hd => hw d (by simp [hd]))
    exact ⟨_, trieAdd_cons_ok r c cs child hb hc⟩

theorem nodeInfo_cons_getD (r : Option Trienode) (c : Int) (cs : List Int)
    (h : 0 ≤ childIndex c ∧ childIndex c < 36) :
    nodeInfo r (c :: cs) = nodeInfo ((r.getD createNewNode).children (cFin c h)) cs := by
  cases r with
  | none =>
    rw [nodeInfo_none]
    show none = nodeInfo none cs
    rw [nodeInfo_none]
  | some t =>
    obtain ⟨b, f, hid, ch⟩ := t
    exact nodeInfo_mk_cons b f hid ch c cs h

theorem nodeInfo_trieAdd_self : ∀ (r : Option Trienode) (w : List Int) (t' : Trienode),
    validTok w → trieAdd r w = .ok t' →
    nodeInfo (some t') w = some (true,
      (match nodeInfo r w with | some (true, f, _) => f + 1 | _ => 1),
      (match nodeInfo r w with | some (_, _, hid) => hid | none => -1))
  | r, [], t', _, hok => by
    rw [trieAdd_nil] at hok
    obtain rfl := (Except.ok.injEq _ _ |>.mp hok).symm
    cases r with
    | none => rfl
    | some t =>
      obtain ⟨b, f, hid, ch⟩ := t
      cases b <;> rfl
  | r, c :: cs, t', hw, hok => by
    have hb := validChar_childIndex (hw c (by simp))
    obtain ⟨child, hrec, rfl⟩ := trieAdd_cons_shape r c cs t' hb hok
    rw [nodeInfo_mk_cons _ _ _ _ _ _ hb, if_pos rfl]
    rw [nodeInfo_cons_getD r c cs hb]
    exact nodeInfo_trieAdd_self _ cs child (fun d hd => hw d (by simp [hd])) hrec

theorem nodeInfo_trieAdd_ne : ∀ (r : Option Trienode) (w w' : List Int) (t' : Trienode),
    validTok w → validTok w' → w' ≠ w → trieAdd r w = .ok t' →
    nodeInfo (some t') w' = nodeInfo r w' ∨
      (nodeInfo r w' = none ∧ nodeInfo (some t') w' = some (false, 0, -1))
  | r, [], w', t', _, hw', hne, hok => by
    rw [trieAdd_nil] at hok
    obtain rfl := (Except.ok.injEq _ _ |>.mp hok).symm
    cases w' with
    | nil => exact absurd rfl hne
    | cons c' cs' =>
      have hb' := validChar_childIndex (hw' c' (by simp))
      rw [nodeInfo_mk_cons _ _ _ _ _ _ hb', nodeInfo_cons_getD r c' cs' hb']
      exact Or.inl rfl
  | r, c :: cs, w', t', hw, hw', hne, hok => by
    have hb := validChar_childIndex (hw c (by simp))
    obtain ⟨child, hrec, rfl⟩ := trieAdd_cons_shape r c cs t' hb hok
    cases w' with
    | nil =>
      cases r with
      | none => exact Or.inr ⟨nodeInfo_none [], rfl⟩
      | some t =>
        obtain ⟨b, f, hid, ch⟩ := t
        exact Or.inl rfl
    | cons c' cs' =>
      have hb' := validChar_childIndex (hw' c' (by simp))
      rw [nodeInfo_mk_cons _ _ _ _ _ _ hb']
      by_cases hcc : cFin c' hb' = cFin c hb
      · have hc : c' = c :=
          childIndex_inj (hw' c' (by simp)) (hw c (by simp)) ((cFin_eq_iff hb' hb).mp hcc)
        subst hc
        have hcs : cs' ≠ cs := fun hh => hne (by rw [hh])
        rw [if_pos hcc, nodeInfo_cons_getD r c' cs' hb']
        have hfi : cFin c' hb' = cFin c' hb := hcc
        rw [hfi]
        exact nodeInfo_trieAdd_ne _ cs cs' child (fun d hd => hw d (by simp [hd]))
          (fun d hd => hw' d (by simp [hd])) hcs hrec
      · rw [if_neg hcc, nodeInfo_cons_getD r c' cs' hb']
        exact Or.inl rfl

/-! ### First-occurrence bookkeeping -/

theorem firstOccs_nil : firstOccs [] = [] := rfl

theorem firstOccs_append (ps : List (List Int)) (w : List Int) :
    firstOccs (ps ++ [w])
      = if w ∈ firstOccs ps then firstOccs ps else firstOccs ps ++ [w] := by
  unfold firstOccs
  rw [List.foldl_append]
  rfl

theorem foldl_firstOccs_mem :
    ∀ (ps : List (List Int)) (acc : List (List Int)) (x : List Int),
      x ∈ ps.foldl (fun acc w => if w ∈ acc then acc else acc ++ [w]) acc ↔
        x ∈ acc ∨ x ∈ ps
  | [], acc, x => by simp
  | w :: ps, acc, x => by
    rw [List.foldl_cons, foldl_firstOccs_mem ps _ x]
    by_cases hw : w ∈ acc
    · rw [if_pos hw]
      constructor
      · rintro (hx | hx)
        · exact Or.inl hx
        · exact Or.inr (by simp [hx])
      · rintro (hx | hx)
        · exact Or.inl hx
        · rcases List.mem_cons.mp hx with rfl | hx
          · exact Or.inl hw
          · exact Or.inr hx
    · rw [if_neg hw]
      simp only [List.mem_append, List.mem_singleton, List.mem_cons]
      tauto

theorem mem_firstOccs (ps : List (List Int)) (x : List Int) :
    x ∈ firstOccs ps ↔ x ∈ ps := by
  unfold firstOccs
  rw [foldl_firstOccs_mem]
  simp

theorem foldl_firstOccs_nodup :
    ∀ (ps : List (List Int)) (acc : List (List Int)), acc.Nodup →
      (ps.foldl (fun acc w => if w ∈ acc then acc else acc ++ [w]) acc).Nodup
  | [], acc, h => h
  | w :: ps, acc, h => by
    rw [List.foldl_cons]
    by_cases hw : w ∈ acc
    · rw [if_pos hw]
      exact foldl_firstOccs_nodup ps acc h
    · rw [if_neg hw]
      refine foldl_firstOccs_nodup ps _ ?_
      rw [List.nodup_append]
      exact ⟨h, List.nodup_singleton w, by simpa using hw⟩

theorem nodup_firstOccs (ps : List (List Int)) : (firstOccs ps).Nodup :=
  foldl_firstOccs_nodup ps [] List.nodup_nil

theorem firstOccs_perm_dedup (ps : List (List Int)) : (firstOccs ps).Perm ps.dedup := by
  refine (List.perm_ext_iff_of_nodup (nodup_firstOccs ps) ps.nodup_dedup).mpr ?_
  intro a
  rw [mem_firstOccs, List.mem_dedup]

/-! ### Tally lemmas -/

theorem tally_nil : tally [] = [] := rfl

theorem count_singleton_tok (a b : List Int) : List.count a [b] = if b = a then 1 else 0 := by
  rw [List.count_singleton]
  simp only [beq_iff_eq]

theorem tally_append_mem (ps : List (List Int)) (w : List Int) (hw : w ∈ firstOccs ps) :
    tally (ps ++ [w])
      = (tally ps).map fun x => if x.1 = w then (x.1, x.2.1 + 1, x.2.2) else x := by
  unfold tally
  rw [firstOccs_append, if_pos hw, List.map_map]
  refine List.map_congr_left ?_
  intro p _
  simp only [Function.comp_apply]
  by_cases hpw : p.2 = w
  · rw [List.count_append, if_pos hpw, count_singleton_tok, if_pos hpw.symm]
  · rw [List.count_append, if_neg hpw, count_singleton_tok,
      if_neg (fun hh => hpw hh.symm), Nat.add_zero]

theorem tally_append_not_mem (ps : List (List Int)) (w : List Int)
    (hw : w ∉ firstOccs ps) :
    tally (ps ++ [w]) = tally ps ++ [(w, 1, (firstOccs ps).length)] := by
  have hwps : w ∉ ps := fun hh => hw ((mem_firstOccs ps w).mpr hh)
  unfold tally
  rw [firstOccs_append, if_neg hw, List.enum_append]
  show ((firstOccs ps).enum ++ [((firstOccs ps).length, w)]).map _ = _
  rw [List.map_append]
  congr 1
  · refine List.map_congr_left ?_
    intro p hp
    have hpmem : p.2 ∈ firstOccs ps := List.snd_mem_of_mem_enum hp
    have hpw : p.2 ≠ w := fun hh => hw (hh ▸ hpmem)
    rw [List.count_append, count_singleton_tok, if_neg (fun hh => hpw hh.symm), Nat.add_zero]
  · simp only [List.map_cons, List.map_nil]
    rw [List.count_append, List.count_eq_zero_of_not_mem hwps, count_singleton_tok, if_pos rfl]

/-! ### The sift-up argument -/

theorem heapProp_of_inv_stop (l : List Wordt) (n i : Nat)
    (hstop : ¬ (0 < i ∧ beats (hget l i) (hget l ((i - 1) / 2))))
    (hinv : siftUpInv l n i) : heapProp l n := by
  intro j hj0 hjn
  by_cases hji : j = i
  · subst hji
    rcases not_and_or.mp hstop with h0 | hb
    · omega
    · exact hb
  · exact hinv.1 j hj0 hjn hji

theorem siftUpInv_step (l : List Wordt) (i : Nat) (hi : i < l.length) (h0 : 0 < i)
    (hb : beats (hget l i) (hget l ((i - 1) / 2)))
    (hinv : siftUpInv l l.length i) :
    siftUpInv (hswap l ((i - 1) / 2) i) l.length ((i - 1) / 2) := by
  have hp : (i - 1) / 2 < l.length := by omega
  have hpi : (i - 1) / 2 < i := by omega
  have ei : hget (hswap l ((i - 1) / 2) i) i = hget l ((i - 1) / 2) := by
    rw [hget_hswap l _ i i hp hi, if_pos rfl]
  have ep : hget (hswap l ((i - 1) / 2) i) ((i - 1) / 2) = hget l i := by
    rw [hget_hswap l _ i _ hp hi, if_neg (by omega), if_pos rfl]
  have eo : ∀ k, k ≠ i → k ≠ (i - 1) / 2 → hget (hswap l ((i - 1) / 2) i) k = hget l k := by
    intro k h1 h2
    rw [hget_hswap l _ i k hp hi, if_neg h1, if_neg h2]
  constructor
  · intro j hj0 hjn hjp
    by_cases hji : j = i
    · subst hji
      rw [ei, ep]
      exact beats_asymm hb
    · rw [eo j hji hjp]
      by_cases hpj1 : (j - 1) / 2 = i
      · rw [hpj1, ei]
        exact hinv.2 j hj0 hjn hpj1
      · by_cases hpj2 : (j - 1) / 2 = (i - 1) / 2
        · rw [hpj2, ep]
          intro hcon
          have h1 := hinv.1 j hj0 hjn hji
          rw [hpj2] at h1
          exact h1 (beats_trans hcon hb)
        · rw [eo _ hpj1 hpj2]
          exact hinv.1 j hj0 hjn hji
  · intro j hj0 hjn hpj
    have hjp : j ≠ (i - 1) / 2 := by omega
    by_cases hP0 : (i - 1) / 2 = 0
    · have hg : ((i - 1) / 2 - 1) / 2 = (i - 1) / 2 := by omega
      rw [hg, ep]
      by_cases hji : j = i
      · subst hji
        rw [ei]
        exact beats_asymm hb
      · rw [eo j hji hjp]
        intro hcon
        have h1 := hinv.1 j hj0 hjn hji
        rw [hpj] at h1
        exact h1 (beats_trans hcon hb)
    · have hgi : ((i - 1) / 2 - 1) / 2 ≠ i := by omega
      have hgp : ((i - 1) / 2 - 1) / 2 ≠ (i - 1) / 2 := by omega
      rw [eo _ hgi hgp]
      have h2 : ¬ beats (hget l ((i - 1) / 2)) (hget l (((i - 1) / 2 - 1) / 2)) :=
        hinv.1 _ (by omega) hp (by omega)
      by_cases hji : j = i
      · subst hji
        rw [ei]
        exact h2
      · rw [eo j hji hjp]
        have h1 := hinv.1 j hj0 hjn hji
        rw [hpj] at h1
        exact not_beats_trans h2 h1

theorem coh_words_ne (t : Option Trienode) (l : List Wordt)
    (hcoh : ∀ k, k < l.length → validTok (hget l k).word ∧
      ∃ f, nodeInfo t ((hget l k).word) = some (true, f, (k : Int)))
    {k k' : Nat} (hk : k < l.length) (hk' : k' < l.length) (hne : k ≠ k') :
    (hget l k).word ≠ (hget l k').word := by
  intro he
  obtain ⟨-, f, h1⟩ := hcoh k hk
  obtain ⟨-, f', h2⟩ := hcoh k' hk'
  rw [he, h2] at h1
  have := (Option.some.injEq _ _).mp h1
  have h3 : (k' : Int) = (k : Int) := by
    have := congrArg (fun x => x.2.2) this
    simpa using this
  omega

theorem siftUpAux_spec :
    ∀ (fuel : Nat) (t : Option Trienode) (l : List Wordt) (i : Nat)
      (t' : Option Trienode) (l' : List Wordt),
      siftUpAux fuel t l i = (t', l') → i ≤ fuel → i < l.length →
      (∀ k, k < l.length → validTok (hget l k).word ∧
        ∃ f, nodeInfo t ((hget l k).word) = some (true, f, (k : Int))) →
      l'.length = l.length ∧ l'.Perm l ∧
      (∀ k, k < l.length → validTok (hget l' k).word ∧
        ∃ f, nodeInfo t' ((hget l' k).word) = some (true, f, (k : Int))) ∧
      (∀ w, validTok w → (∀ k, k < l.length → (hget l k).word ≠ w) →
        nodeInfo t' w = nodeInfo t w) ∧
      (siftUpInv l l.length i → heapProp l' l.length)
  | 0, t, l, i, t', l', heq, hfuel, hi, hcoh => by
    obtain ⟨rfl, rfl⟩ : t = t' ∧ l = l' := by
      have := (Prod.mk.injEq _ _ _ _).mp heq
      exact ⟨this.1, this.2⟩
    have hi0 : i = 0 := by omega
    subst hi0
    refine ⟨rfl, List.Perm.refl l, hcoh, fun w _ _ => rfl, fun hinv => ?_⟩
    exact heapProp_of_inv_stop l l.length 0 (by simp) hinv
  | fuel + 1, t, l, i, t', l', heq, hfuel, hi, hcoh => by
    by_cases hcond : 0 < i ∧ beats (hget l i) (hget l ((i - 1) / 2))
    · obtain ⟨hi0, hb⟩ := hcond
      have hp : (i - 1) / 2 < l.length := by omega
      have hpi : (i - 1) / 2 < i := by omega
      obtain ⟨hvp, fp, hfp⟩ := hcoh ((i - 1) / 2) hp
      obtain ⟨hvi, fi, hfi⟩ := hcoh i hi
      have hne : (hget l i).word ≠ (hget l ((i - 1) / 2)).word :=
        coh_words_ne t l hcoh hi hp (by omega)
      have heq2 : siftUpAux fuel
          (trieSetHeapId (trieSetHeapId t (hget l ((i - 1) / 2)).word (i : Int))
            ((hget l i).word) (((i - 1) / 2 : Nat) : Int))
          (hswap l ((i - 1) / 2) i) ((i - 1) / 2) = (t', l') := by
        rw [siftUpAux, if_pos ⟨hi0, hb⟩] at heq
        exact heq
      have ht1_wi : nodeInfo (trieSetHeapId t (hget l ((i - 1) / 2)).word (i : Int))
          ((hget l i).word) = some (true, fi, (i : Int)) := by
        rw [nodeInfo_setHeapId_ne t _ _ _ hvp hvi hne, hfi]
      have ht1_wp : nodeInfo (trieSetHeapId t (hget l ((i - 1) / 2)).word (i : Int))
          ((hget l ((i - 1) / 2)).word) = some (true, fp, (i : Int)) := by
        rw [nodeInfo_setHeapId_self t _ _ hvp, hfp]
        rfl
      have ht2_wi : nodeInfo (trieSetHeapId (trieSetHeapId t (hget l ((i - 1) / 2)).word (i : Int))
          ((hget l i).word) (((i - 1) / 2 : Nat) : Int)) ((hget l i).word)
          = some (true, fi, (((i - 1) / 2 : Nat) : Int)) := by
        rw [nodeInfo_setHeapId_self _ _ _ hvi, ht1_wi]
        rfl
      have ht2_wp : nodeInfo (trieSetHeapId (trieSetHeapId t (hget l ((i - 1) / 2)).word (i : Int))
          ((hget l i).word) (((i - 1) / 2 : Nat) : Int)) ((hget l ((i - 1) / 2)).word)
          = some (true, fp, (i : Int)) := by
        rw [nodeInfo_setHeapId_ne _ _ _ _ hvi hvp (fun hh => hne hh.symm), ht1_wp]
      have ht2_other : ∀ k, k < l.length → k ≠ i → k ≠ (i - 1) / 2 →
          nodeInfo (trieSetHeapId (trieSetHeapId t (hget l ((i - 1) / 2)).word (i : Int))
            ((hget l i).word) (((i - 1) / 2 : Nat) : Int)) ((hget l k).word)
            = nodeInfo t ((hget l k).word) := by
        intro k hk hki hkp
        obtain ⟨hvk, fk, hfk⟩ := hcoh k hk
        rw [nodeInfo_setHeapId_ne _ _ _ _ hvi hvk
          (fun hh => (coh_words_ne t l hcoh hk hi hki) hh),
          nodeInfo_setHeapId_ne _ _ _ _ hvp hvk
          (fun hh => (coh_words_ne t l hcoh hk hp hkp) hh)]
      have ei : hget (hswap l ((i - 1) / 2) i) i = hget l ((i - 1) / 2) := by
        rw [hget_hswap l _ i i hp hi, if_pos rfl]
      have ep : hget (hswap l ((i - 1) / 2) i) ((i - 1) / 2) = hget l i := by
        rw [hget_hswap l _ i _ hp hi, if_neg (by omega), if_pos rfl]
      have eo : ∀ k, k ≠ i → k ≠ (i - 1) / 2 →
          hget (hswap l ((i - 1) / 2) i) k = hget l k := by
        intro k h1 h2
        rw [hget_hswap l _ i k hp hi, if_neg h1, if_neg h2]
      have hlen2 : (hswap l ((i - 1) / 2) i).length = l.length := length_hswap l _ i
      have hcoh2 : ∀ k, k < (hswap l ((i - 1) / 2) i).length →
          validTok (hget (hswap l ((i - 1) / 2) i) k).word ∧
          ∃ f, nodeInfo (trieSetHeapId (trieSetHeapId t (hget l ((i - 1) / 2)).word (i : Int))
            ((hget l i).word) (((i - 1) / 2 : Nat) : Int))
            ((hget (hswap l ((i - 1) / 2) i) k).word) = some (true, f, (k : Int)) := by
        intro k hk
        rw [hlen2] at hk
        by_cases hki : k = i
        · subst hki
          rw [ei]
          exact ⟨hvp, fp, ht2_wp⟩
        · by_cases hkp : k = (i - 1) / 2
          · subst hkp
            rw [ep]
            exact ⟨hvi, fi, ht2_wi⟩
          · rw [eo k hki hkp]
            obtain ⟨hvk, fk, hfk⟩ := hcoh k hk
            exact ⟨hvk, fk, by rw [ht2_other k hk hki hkp]; exact hfk⟩
      obtain ⟨ih_len, ih_perm, ih_coh, ih_pres, ih_heap⟩ :=
        siftUpAux_spec fuel _ _ _ t' l' heq2 (by omega) (by omega) hcoh2
      rw [hlen2] at ih_len ih_coh ih_pres ih_heap
      refine ⟨ih_len, ih_perm.trans (hswap_perm l _ i hp hi), ih_coh,
        ?_, fun hinv => ?_⟩
      · intro w hw hall
        rw [ih_pres w hw ?hall2]
        case hall2 =>
          intro k hk
          by_cases hki : k = i
          · subst hki; rw [ei]; exact hall _ hp
          · by_cases hkp : k = (i - 1) / 2
            · subst hkp; rw [ep]; exact hall _ hi
            · rw [eo k hki hkp]; exact hall _ hk
        rw [nodeInfo_setHeapId_ne _ _ _ _ hvi hw (fun hh => (hall i hi) hh.symm),
          nodeInfo_setHeapId_ne _ _ _ _ hvp hw (fun hh => (hall _ hp) hh.symm)]
      · exact ih_heap (siftUpInv_step l i hi hi0 hb hinv)
    · obtain ⟨rfl, rfl⟩ : t = t' ∧ l = l' := by
        rw [siftUpAux, if_neg hcond] at heq
        have := (Prod.mk.injEq _ _ _ _).mp heq
        exact ⟨this.1, this.2⟩
      refine ⟨rfl, List.Perm.refl l, hcoh, fun w _ _ => rfl, fun hinv => ?_⟩
      exact heapProp_of_inv_stop l l.length i hcond hinv

/-! ### The insert step -/

theorem hget_eq_get (l : List Wordt) (n : Fin l.length) : hget l n.1 = l.get n := by
  unfold hget
  rw [List.getD_eq_getElem?_getD]
  simp [List.getElem?_eq_getElem n.2]

theorem nodeInfo_some_elim {r : Option Trienode} {w : List Int} {x : Bool × Nat × Int}
    (h : nodeInfo r w = some x) :
    ∃ nd, trieFind r w = some nd ∧ nd.isLeaf = x.1 ∧ nd.frequency = x.2.1 ∧
      nd.heapId = x.2.2 := by
  unfold nodeInfo at h
  rcases hf : trieFind r w with - | nd
  · rw [hf] at h
    exact absurd h (by simp)
  · rw [hf] at h
    have h2 : some (nd.isLeaf, nd.frequency, nd.heapId) = some x := h
    have h3 := (Option.some.injEq _ _).mp h2
    exact ⟨nd, rfl, by rw [← h3], by rw [← h3], by rw [← h3]⟩

theorem insertModel_dup (s : S) (w : List Int) (t1 nd : Trienode)
    (hadd : trieAdd s.root w = .ok t1) (hfind : trieFind (some t1) w = some nd)
    (hne : nd.heapId ≠ -1) :
    insertModel s w = .ok (S.mk
      (siftUpT (some t1) (s.heap.set nd.heapId.toNat
        ⟨(hget s.heap nd.heapId.toNat).word,
          (hget s.heap nd.heapId.toNat).frequency + 1,
          (hget s.heap nd.heapId.toNat).occurredAt⟩) nd.heapId.toNat).1
      (siftUpT (some t1) (s.heap.set nd.heapId.toNat
        ⟨(hget s.heap nd.heapId.toNat).word,
          (hget s.heap nd.heapId.toNat).frequency + 1,
          (hget s.heap nd.heapId.toNat).occurredAt⟩) nd.heapId.toNat).2
      s.size (s.totalWords + 1) s.uniqueOccurrences) := by
  simp only [insertModel, hadd, hfind]
  rw [if_pos hne]

theorem insertModel_fresh (s : S) (w : List Int) (t1 nd : Trienode)
    (hadd : trieAdd s.root w = .ok t1) (hfind : trieFind (some t1) w = some nd)
    (hne : nd.heapId = -1) :
    insertModel s w = .ok (S.mk
      (siftUpT (trieSetHeapId (some t1) w (s.size : Int))
        (s.heap ++ [⟨w, nd.frequency, s.uniqueOccurrences⟩]) s.size).1
      (siftUpT (trieSetHeapId (some t1) w (s.size : Int))
        (s.heap ++ [⟨w, nd.frequency, s.uniqueOccurrences⟩]) s.size).2
      (s.size + 1) (s.totalWords + 1) (s.uniqueOccurrences + 1)) := by
  simp only [insertModel, hadd, hfind]
  rw [if_neg (by simp [hne])]

theorem heap_words_perm (heap : List Wordt) (ps : List (List Int))
    (hdata : (heap.map fun e => (e.word, e.frequency, e.occurredAt)).Perm (tally ps)) :
    (heap.map Wordt.word).Perm (firstOccs ps) := by
  have h1 := hdata.map (fun x => x.1)
  unfold tally at h1
  rw [List.map_map, List.map_map] at h1
  have h2 : ((fun x : List Int × Nat × Nat => x.1) ∘
      (fun e : Wordt => (e.word, e.frequency, e.occurredAt))) = Wordt.word := rfl
  have h3 : ((fun x : List Int × Nat × Nat => x.1) ∘
      (fun p : Nat × List Int => (p.2, ps.count p.2, p.1))) = fun p : Nat × List Int => p.2 :=
    rfl
  rw [h2, h3] at h1
  rw [List.enum_map_snd] at h1
  exact h1

theorem heap_word_mem_index (heap : List Wordt) (w : List Int)
    (hw : w ∈ heap.map Wordt.word) :
    ∃ k, k < heap.length ∧ (hget heap k).word = w := by
  obtain ⟨e, he, hew⟩ := List.mem_map.mp hw
  obtain ⟨n, hn⟩ := List.mem_iff_get.mp he
  exact ⟨n.1, n.2, by rw [hget_eq_get heap n, hn, hew]⟩

theorem hget_mem (l : List Wordt) (j : Nat) (hj : j < l.length) : hget l j ∈ l := by
  rw [hget_eq_get l ⟨j, hj⟩]
  exact l.get_mem j hj

theorem insert_step_mem (s : S) (ps : List (List Int)) (w : List Int)
    (hs : IngestInv s ps) (hw : validTok w) (hmem : w ∈ firstOccs ps) :
    ∃ s', insertModel s w = .ok s' ∧ IngestInv s' (ps ++ [w]) := by
  obtain ⟨hlen, hsize, huo, htw, hdata, hvalid, hcoh, hfresh, hheap⟩ := hs
  have hwperm := heap_words_perm s.heap ps hdata
  obtain ⟨k, hk, hkw⟩ := heap_word_mem_index s.heap w (hwperm.symm.subset hmem)
  have hcohL : ∀ j, j < s.heap.length → validTok (hget s.heap j).word ∧
      ∃ f, nodeInfo s.root ((hget s.heap j).word) = some (true, f, (j : Int)) := by
    intro j hj
    rw [hlen] at hj
    exact ⟨hvalid j hj, hcoh j hj⟩
  obtain ⟨fk, hfk⟩ := (hcohL k hk).2
  rw [hkw] at hfk
  obtain ⟨t1, hadd⟩ := trieAdd_ok s.root w hw
  have hself := nodeInfo_trieAdd_self s.root w t1 hw hadd
  rw [hfk] at hself
  have hself2 : nodeInfo (some t1) w = some (true, fk + 1, (k : Int)) := hself
  obtain ⟨nd, hfind, hndL, hndF, hndH⟩ := nodeInfo_some_elim hself2
  have hndH' : nd.heapId = (k : Int) := hndH
  have hne1 : nd.heapId ≠ -1 := by rw [hndH']; omega
  have htn : nd.heapId.toNat = k := by rw [hndH']; simp
  have hdup := insertModel_dup s w t1 nd hadd hfind hne1
  rw [htn, hkw] at hdup
  refine ⟨_, hdup, ?_⟩
  have hl1len : (s.heap.set k ⟨w, (hget s.heap k).frequency + 1,
      (hget s.heap k).occurredAt⟩).length = s.heap.length := by simp
  have hget_l1_k : hget (s.heap.set k ⟨w, (hget s.heap k).frequency + 1,
      (hget s.heap k).occurredAt⟩) k
      = ⟨w, (hget s.heap k).frequency + 1, (hget s.heap k).occurredAt⟩ :=
    hget_set_self _ _ _ hk
  have hget_l1_ne : ∀ j, j ≠ k → hget (s.heap.set k ⟨w, (hget s.heap k).frequency + 1,
      (hget s.heap k).occurredAt⟩) j = hget s.heap j :=
    fun j hj => hget_set_ne _ _ _ _ (fun hh => hj hh.symm)
  have hcoh1 : ∀ j, j < (s.heap.set k ⟨w, (hget s.heap k).frequency + 1,
      (hget s.heap k).occurredAt⟩).length →
      validTok (hget (s.heap.set k ⟨w, (hget s.heap k).frequency + 1,
        (hget s.heap k).occurredAt⟩) j).word ∧
      ∃ f, nodeInfo (some t1) ((hget (s.heap.set k ⟨w, (hget s.heap k).frequency + 1,
        (hget s.heap k).occurredAt⟩) j).word) = some (true, f, (j : Int)) := by
    intro j hj
    rw [hl1len] at hj
    by_cases hjk : j = k
    · subst hjk
      rw [hget_l1_k]
      exact ⟨hw, fk + 1, hself2⟩
    · rw [hget_l1_ne j hjk]
      obtain ⟨hv, f, hf⟩ := hcohL j hj
      have hwne : (hget s.heap j).word ≠ w := by
        rw [← hkw]
        exact coh_words_ne s.root s.heap hcohL hj hk hjk
      rcases nodeInfo_trieAdd_ne s.root w _ t1 hw hv hwne hadd with h | ⟨hnone, -⟩
      · exact ⟨hv, f, by rw [h, hf]⟩
      · rw [hnone] at hf
        exact absurd hf (by simp)
  have hbump : (⟨w, (hget s.heap k).frequency + 1, (hget s.heap k).occurredAt⟩ : Wordt)
      = ⟨(hget s.heap k).word, (hget s.heap k).frequency + 1,
        (hget s.heap k).occurredAt⟩ := by rw [hkw]
  have hinv1 : siftUpInv (s.heap.set k ⟨w, (hget s.heap k).frequency + 1,
      (hget s.heap k).occurredAt⟩) (s.heap.set k ⟨w, (hget s.heap k).frequency + 1,
      (hget s.heap k).occurredAt⟩).length k := by
    constructor
    · intro j hj0 hjn hjk
      rw [hl1len] at hjn
      rw [hget_l1_ne j hjk]
      by_cases hpk : (j - 1) / 2 = k
      · rw [hpk, hget_l1_k, hbump]
        have hh := hheap j hj0 (by omega)
        rw [hpk] at hh
        exact not_beats_bump hh
      · rw [hget_l1_ne _ hpk]
        exact hheap j hj0 (by omega)
    · intro j hj0 hjn hpj
      rw [hl1len] at hjn
      have hjk : j ≠ k := by omega
      rw [hget_l1_ne j hjk]
      by_cases hk0 : k = 0
      · subst hk0
        have hz : ((0 : Nat) - 1) / 2 = 0 := by omega
        rw [hz, hget_l1_k, hbump]
        have hh := hheap j hj0 (by omega)
        rw [hpj] at hh
        exact not_beats_bump hh
      · have hpk : (k - 1) / 2 ≠ k := by omega
        rw [hget_l1_ne _ hpk]
        have h1 := hheap j hj0 (by omega)
        rw [hpj] at h1
        have h2 := hheap k (by omega) (by omega)
        exact not_beats_trans h2 h1
  have hkl1 : k < (s.heap.set k ⟨w, (hget s.heap k).frequency + 1,
      (hget s.heap k).occurredAt⟩).length := by rw [hl1len]; exact hk
  obtain ⟨len2, perm2, coh2, pres2, heapP2⟩ := siftUpAux_spec k (some t1)
    (s.heap.set k ⟨w, (hget s.heap k).frequency + 1, (hget s.heap k).occurredAt⟩) k
    (siftUpT (some t1) (s.heap.set k ⟨w, (hget s.heap k).frequency + 1,
      (hget s.heap k).occurredAt⟩) k).1
    (siftUpT (some t1) (s.heap.set k ⟨w, (hget s.heap k).frequency + 1,
      (hget s.heap k).occurredAt⟩) k).2
    rfl (le_refl k) hkl1 hcoh1
  constructor
  · rw [len2, hl1len, hlen]
  · rw [firstOccs_append, if_pos hmem]
    exact hsize
  · rw [firstOccs_append, if_pos hmem]
    exact huo
  · rw [List.length_append, List.length_singleton, htw]
  · -- data permutation
    rw [tally_append_mem ps w hmem]
    have p1 := perm2.map (fun e : Wordt => (e.word, e.frequency, e.occurredAt))
    refine p1.trans ?_
    have p2 := (set_perm s.heap k ⟨w, (hget s.heap k).frequency + 1,
      (hget s.heap k).occurredAt⟩ hk).map
      (fun e : Wordt => (e.word, e.frequency, e.occurredAt))
    refine p2.trans ?_
    rw [List.map_cons]
    have p3 := (cons_eraseIdx_perm s.heap k hk).map
      (fun e : Wordt => if e.word = w then (e.word, e.frequency + 1, e.occurredAt)
        else (e.word, e.frequency, e.occurredAt))
    rw [List.map_cons] at p3
    have hnodup : (s.heap.map Wordt.word).Nodup := hwperm.nodup_iff.mpr (nodup_firstOccs ps)
    have hmapperm := (cons_eraseIdx_perm s.heap k hk).map Wordt.word
    rw [List.map_cons] at hmapperm
    have hnodup2 := hmapperm.nodup_iff.mp hnodup
    have hnotmem : ∀ x ∈ s.heap.eraseIdx k, x.word ≠ w := by
      intro x hx hxw
      have hxm : x.word ∈ (s.heap.eraseIdx k).map Wordt.word := List.mem_map_of_mem _ hx
      rw [hxw, ← hkw] at hxm
      exact (List.nodup_cons.mp hnodup2).1 hxm
    have hb1 : (if (hget s.heap k).word = w
        then ((hget s.heap k).word, (hget s.heap k).frequency + 1, (hget s.heap k).occurredAt)
        else ((hget s.heap k).word, (hget s.heap k).frequency, (hget s.heap k).occurredAt))
        = (w, (hget s.heap k).frequency + 1, (hget s.heap k).occurredAt) := by
      rw [if_pos hkw, hkw]
    rw [hb1] at p3
    have hb2 : (s.heap.eraseIdx k).map
        (fun e : Wordt => if e.word = w then (e.word, e.frequency + 1, e.occurredAt)
          else (e.word, e.frequency, e.occurredAt))
        = (s.heap.eraseIdx k).map (fun e : Wordt => (e.word, e.frequency, e.occurredAt)) := by
      refine List.map_congr_left ?_
      intro x hx
      rw [if_neg (hnotmem x hx)]
    rw [hb2] at p3
    have hmm : (s.heap.map (fun e : Wordt => (e.word, e.frequency, e.occurredAt))).map
        (fun x : List Int × Nat × Nat => if x.1 = w then (x.1, x.2.1 + 1, x.2.2) else x)
        = s.heap.map (fun e : Wordt => if e.word = w then (e.word, e.frequency + 1, e.occurredAt)
          else (e.word, e.frequency, e.occurredAt)) := by
      rw [List.map_map]
      refine List.map_congr_left ?_
      intro x _
      rfl
    have hfinal := (hdata.map
      (fun x : List Int × Nat × Nat => if x.1 = w then (x.1, x.2.1 + 1, x.2.2) else x)).symm
    rw [hmm] at hfinal
    exact p3.symm.trans hfinal.symm
  · -- hvalid
    intro j hj
    have hj' : j < (s.heap.set k ⟨w, (hget s.heap k).frequency + 1,
        (hget s.heap k).occurredAt⟩).length := by rw [hl1len, hlen]; exact hj
    exact (coh2 j hj').1
  · -- hcoh
    intro j hj
    have hj' : j < (s.heap.set k ⟨w, (hget s.heap k).frequency + 1,
        (hget s.heap k).occurredAt⟩).length := by rw [hl1len, hlen]; exact hj
    exact (coh2 j hj').2
  · -- hfresh
    intro w' hv' hmem'
    rw [firstOccs_append, if_pos hmem] at hmem'
    have hne' : w' ≠ w := fun hh => hmem' (hh ▸ hmem)
    have hall : ∀ j, j < (s.heap.set k ⟨w, (hget s.heap k).frequency + 1,
        (hget s.heap k).occurredAt⟩).length →
        (hget (s.heap.set k ⟨w, (hget s.heap k).frequency + 1,
          (hget s.heap k).occurredAt⟩) j).word ≠ w' := by
      intro j hj
      rw [hl1len] at hj
      by_cases hjk : j = k
      · subst hjk
        rw [hget_l1_k]
        exact fun hh => hne' hh.symm
      · rw [hget_l1_ne j hjk]
        intro hh
        apply hmem'
        rw [← hh]
        exact hwperm.subset (List.mem_map_of_mem _ (hget_mem s.heap j hj))
    have hpres := pres2 w' hv' hall
    rcases nodeInfo_trieAdd_ne s.root w w' t1 hw hv' hne' hadd with h | ⟨hnone, hinner⟩
    · rw [hpres, h]
      exact hfresh w' hv' hmem'
    · rw [hpres, hinner]
      exact Or.inr ⟨0, rfl⟩
  · -- hheap
    have := heapP2 hinv1
    rw [hl1len, hlen] at this
    exact this

theorem insert_step_fresh (s : S) (ps : List (List Int)) (w : List Int)
    (hs : IngestInv s ps) (hw : validTok w) (hmem : w ∉ firstOccs ps) :
    ∃ s', insertModel s w = .ok s' ∧ IngestInv s' (ps ++ [w]) := by
  obtain ⟨hlen, hsize, huo, htw, hdata, hvalid, hcoh, hfresh, hheap⟩ := hs
  have hwperm := heap_words_perm s.heap ps hdata
  obtain ⟨t1, hadd⟩ := trieAdd_ok s.root w hw
  have hself := nodeInfo_trieAdd_self s.root w t1 hw hadd
  have hself2 : nodeInfo (some t1) w = some (true, 1, -1) := by
    rcases hfresh w hw hmem with hnone | ⟨f0, hsome⟩
    · rw [hnone] at hself
      exact hself
    · rw [hsome] at hself
      exact hself
  obtain ⟨nd, hfind, hndL, hndF, hndH⟩ := nodeInfo_some_elim hself2
  have hndH' : nd.heapId = -1 := hndH
  have hndF' : nd.frequency = 1 := hndF
  have hfr := insertModel_fresh s w t1 nd hadd hfind hndH'
  rw [hndF'] at hfr
  refine ⟨_, hfr, ?_⟩
  have hl1len : (s.heap ++ [(⟨w, 1, s.uniqueOccurrences⟩ : Wordt)]).length
      = s.heap.length + 1 := by simp
  have hword_ne : ∀ j, j < s.heap.length → (hget s.heap j).word ≠ w := by
    intro j hj hh
    apply hmem
    rw [← hh]
    exact hwperm.subset (List.mem_map_of_mem _ (hget_mem s.heap j hj))
  have hcohL : ∀ j, j < s.heap.length → validTok (hget s.heap j).word ∧
      ∃ f, nodeInfo s.root ((hget s.heap j).word) = some (true, f, (j : Int)) := by
    intro j hj
    rw [hlen] at hj
    exact ⟨hvalid j hj, hcoh j hj⟩
  have ht2w : nodeInfo (trieSetHeapId (some t1) w (s.size : Int)) w
      = some (true, 1, (s.size : Int)) := by
    rw [nodeInfo_setHeapId_self _ _ _ hw, hself2]
    rfl
  have ht2other : ∀ w', validTok w' → w' ≠ w →
      nodeInfo (trieSetHeapId (some t1) w (s.size : Int)) w' = nodeInfo (some t1) w' :=
    fun w' hv' hne' => nodeInfo_setHeapId_ne _ _ _ _ hw hv' hne'
  have hgetj : ∀ j, j < s.heap.length →
      hget (s.heap ++ [(⟨w, 1, s.uniqueOccurrences⟩ : Wordt)]) j = hget s.heap j :=
    fun j hj => hget_append_left s.heap _ j hj
  have hgetn : hget (s.heap ++ [(⟨w, 1, s.uniqueOccurrences⟩ : Wordt)]) s.heap.length
      = ⟨w, 1, s.uniqueOccurrences⟩ := hget_append_length s.heap _
  have hcoh1 : ∀ j, j < (s.heap ++ [(⟨w, 1, s.uniqueOccurrences⟩ : Wordt)]).length →
      validTok (hget (s.heap ++ [(⟨w, 1, s.uniqueOccurrences⟩ : Wordt)]) j).word ∧
      ∃ f, nodeInfo (trieSetHeapId (some t1) w (s.size : Int))
        ((hget (s.heap ++ [(⟨w, 1, s.uniqueOccurrences⟩ : Wordt)]) j).word)
        = some (true, f, (j : Int)) := by
    intro j hj
    rw [hl1len] at hj
    by_cases hjn : j = s.heap.length
    · subst hjn
      rw [hgetn]
      refine ⟨hw, 1, ?_⟩
      rw [ht2w]
      rw [hlen]
    · have hjlt : j < s.heap.length := by omega
      rw [hgetj j hjlt]
      obtain ⟨hv, f, hf⟩ := hcohL j hjlt
      refine ⟨hv, f, ?_⟩
      rw [ht2other _ hv (hword_ne j hjlt)]
      rcases nodeInfo_trieAdd_ne s.root w _ t1 hw hv (hword_ne j hjlt) hadd with h | ⟨hnone, -⟩
      · rw [h, hf]
      · rw [hnone] at hf
        exact absurd hf (by simp)
  have hinv1 : siftUpInv (s.heap ++ [(⟨w, 1, s.uniqueOccurrences⟩ : Wordt)])
      (s.heap ++ [(⟨w, 1, s.uniqueOccurrences⟩ : Wordt)]).length s.size := by
    constructor
    · intro j hj0 hjn hjs
      rw [hl1len, hlen] at hjn
      have hjlt : j < s.heap.length := by omega
      have hplt : (j - 1) / 2 < s.heap.length := by omega
      rw [hgetj j hjlt, hgetj _ hplt]
      exact hheap j hj0 (by omega)
    · intro j hj0 hjn hpj
      rw [hl1len, hlen] at hjn
      omega
  have hss : s.size < (s.heap ++ [(⟨w, 1, s.uniqueOccurrences⟩ : Wordt)]).length := by
    rw [hl1len, hlen]
    omega
  obtain ⟨len2, perm2, coh2, pres2, heapP2⟩ := siftUpAux_spec s.size
    (trieSetHeapId (some t1) w (s.size : Int))
    (s.heap ++ [(⟨w, 1, s.uniqueOccurrences⟩ : Wordt)]) s.size
    (siftUpT (trieSetHeapId (some t1) w (s.size : Int))
      (s.heap ++ [(⟨w, 1, s.uniqueOccurrences⟩ : Wordt)]) s.size).1
    (siftUpT (trieSetHeapId (some t1) w (s.size : Int))
      (s.heap ++ [(⟨w, 1, s.uniqueOccurrences⟩ : Wordt)]) s.size).2
    rfl (le_refl s.size) hss hcoh1
  constructor
  · rw [len2, hl1len, hlen]
  · rw [firstOccs_append, if_neg hmem, List.length_append, List.length_singleton, hsize]
  · rw [firstOccs_append, if_neg hmem, List.length_append, List.length_singleton, huo]
  · rw [List.length_append, List.length_singleton, htw]
  · -- data permutation
    rw [tally_append_not_mem ps w hmem]
    have p1 := perm2.map (fun e : Wordt => (e.word, e.frequency, e.occurredAt))
    refine p1.trans ?_
    rw [List.map_append]
    have p2 := hdata.append
      (List.Perm.refl [((⟨w, 1, s.uniqueOccurrences⟩ : Wordt).word,
        (⟨w, 1, s.uniqueOccurrences⟩ : Wordt).frequency,
        (⟨w, 1, s.uniqueOccurrences⟩ : Wordt).occurredAt)])
    refine p2.trans ?_
    show (tally ps ++ [(w, 1, s.uniqueOccurrences)]).Perm _
    rw [huo]
  · intro j hj
    have hj' : j < (s.heap ++ [(⟨w, 1, s.uniqueOccurrences⟩ : Wordt)]).length := by
      rw [hl1len, hlen]
      exact hj
    exact (coh2 j hj').1
  · intro j hj
    have hj' : j < (s.heap ++ [(⟨w, 1, s.uniqueOccurrences⟩ : Wordt)]).length := by
      rw [hl1len, hlen]
      exact hj
    exact (coh2 j hj').2
  · intro w' hv' hmem'
    rw [firstOccs_append, if_neg hmem] at hmem'
    have hne' : w' ≠ w := by
      intro hh
      exact hmem' (by rw [hh]; exact List.mem_append_right _ (by simp))
    have hmem'' : w' ∉ firstOccs ps := fun hh => hmem' (List.mem_append_left _ hh)
    have hall : ∀ j, j < (s.heap ++ [(⟨w, 1, s.uniqueOccurrences⟩ : Wordt)]).length →
        (hget (s.heap ++ [(⟨w, 1, s.uniqueOccurrences⟩ : Wordt)]) j).word ≠ w' := by
      intro j hj
      rw [hl1len] at hj
      by_cases hjn : j = s.heap.length
      · subst hjn
        rw [hgetn]
        exact fun hh => hne' hh.symm
      · have hjlt : j < s.heap.length := by omega
        rw [hgetj j hjlt]
        intro hh
        apply hmem''
        rw [← hh]
        exact hwperm.subset (List.mem_map_of_mem _ (hget_mem s.heap j hjlt))
    have hpres := pres2 w' hv' hall
    rw [hpres, ht2other _ hv' hne']
    rcases nodeInfo_trieAdd_ne s.root w w' t1 hw hv' hne' hadd with h | ⟨hnone, hinner⟩
    · rw [h]
      exact hfresh w' hv' hmem''
    · rw [hinner]
      exact Or.inr ⟨0, rfl⟩
  · have := heapP2 hinv1
    rw [hl1len, hlen] at this
    exact this

theorem insert_step (s : S) (ps : List (List Int)) (w : List Int)
    (hs : IngestInv s ps) (hw : validTok w) :
    ∃ s', insertModel s w = .ok s' ∧ IngestInv s' (ps ++ [w]) := by
  by_cases hmem : w ∈ firstOccs ps
  · exact insert_step_mem s ps w hs hw hmem
  · exact insert_step_fresh s ps w hs hw hmem

theorem initS_inv : IngestInv initS [] := by
  constructor
  · rfl
  · rfl
  · rfl
  · rfl
  · rw [tally_nil]
    exact List.Perm.refl _
  · intro k hk
    have hz : initS.size = 0 := rfl
    omega
  · intro k hk
    have hz : initS.size = 0 := rfl
    omega
  · intro w _ _
    exact Or.inl (nodeInfo_none w)
  · intro j hj0 hjn
    have hz : initS.size = 0 := rfl
    omega

theorem ingestAll_inv : ∀ (ws : List (List Int)) (s : S) (ps : List (List Int)),
    IngestInv s ps → (∀ w ∈ ws, validTok w) →
    ∃ s', ingestAll s ws = .ok s' ∧ IngestInv s' (ps ++ ws)
  | [], s, ps, hs, _ => ⟨s, rfl, by rw [List.append_nil]; exact hs⟩
  | w :: ws, s, ps, hs, hv => by
    obtain ⟨s1, hins, hinv1⟩ := insert_step s ps w hs (hv w (by simp))
    obtain ⟨s2, hall, hinv'⟩ := ingestAll_inv ws s1 (ps ++ [w]) hinv1
      (fun u hu => hv u (by simp [hu]))
    refine ⟨s2, ?_, ?_⟩
    · simp only [ingestAll, hins]
      exact hall
    · rw [show ps ++ w :: ws = (ps ++ [w]) ++ ws by simp]
      exact hinv'

theorem ingestAll_initS_inv (ws : List (List Int)) (hv : ∀ w ∈ ws, validTok w) :
    ∃ s, ingestAll initS ws = .ok s ∧ IngestInv s ws := by
  obtain ⟨s, h, hinv⟩ := ingestAll_inv ws initS [] initS_inv hv
  rw [List.nil_append] at hinv
  exact ⟨s, h, hinv⟩

/-- C2: after any sequence of ingest calls on alphabet tokens, the backing
array satisfies the max-heap property under the (frequency desc,
first-occurrence asc) ordering. -/
theorem heap_property_after_ingest (ws : List (List Int))
    (hv : ∀ w ∈ ws, validTok w) :
    ∃ s, ingestAll initS ws = .ok s ∧ heapProp s.heap s.size := by
  obtain ⟨s, h, hinv⟩ := ingestAll_initS_inv ws hv
  exact ⟨s, h, hinv.hheap⟩

/-- Witness for C2 at the concrete token sequence b, a, b. -/
theorem heap_property_after_ingest_witness :
    (∀ w ∈ [[98], [97], [98]], validTok w) ∧
    ∃ s, ingestAll initS [[98], [97], [98]] = .ok s ∧ heapProp s.heap s.size :=
  ⟨by decide, heap_property_after_ingest [[98], [97], [98]] (by decide)⟩

/-- C3: after ingestion, `totalWords` equals the number of ingest calls and
`uniqueOccurrences` equals the number of distinct tokens. -/
theorem counters_correct (ws : List (List Int)) (hv : ∀ w ∈ ws, validTok w) :
    ∃ s, ingestAll initS ws = .ok s ∧ s.totalWords = ws.length ∧
      s.uniqueOccurrences = ws.dedup.length := by
  obtain ⟨s, h, hinv⟩ := ingestAll_initS_inv ws hv
  exact ⟨s, h, hinv.htw, by rw [hinv.huo, (firstOccs_perm_dedup ws).length_eq]⟩

/-- Witness for C3 at the concrete token sequence b, a, b, a. -/
theorem counters_correct_witness :
    (∀ w ∈ [[98], [97], [98], [97]], validTok w) ∧
    ∃ s, ingestAll initS [[98], [97], [98], [97]] = .ok s ∧
      s.totalWords = 4 ∧ s.uniqueOccurrences = [[98], [97], [98], [97]].dedup.length := by
  refine ⟨by decide, ?_⟩
  obtain ⟨s, h, h1, h2⟩ := counters_correct [[98], [97], [98], [97]] (by decide)
  exact ⟨s, h, h1, h2⟩

/-- C4 (amended, positive part): at every point during ingestion, every
distinct token's trie `heapId` equals the heap slot where its entry currently
resides. -/
theorem heapId_backpointers_correct_during_ingestion (ws : List (List Int))
    (hv : ∀ w ∈ ws, validTok w) :
    ∃ s, ingestAll initS ws = .ok s ∧ ∀ k, k < s.size →
      ∃ f, nodeInfo s.root ((hget s.heap k).word) = some (true, f, (k : Int)) := by
  obtain ⟨s, h, hinv⟩ := ingestAll_initS_inv ws hv
  exact ⟨s, h, hinv.hcoh⟩

/-- Witness for the amended C4 at the concrete token sequence b, a, b. -/
theorem heapId_backpointers_correct_during_ingestion_witness :
    (∀ w ∈ [[98], [97], [98]], validTok w) ∧
    ∃ s, ingestAll initS [[98], [97], [98]] = .ok s ∧ ∀ k, k < s.size →
      ∃ f, nodeInfo s.root ((hget s.heap k).word) = some (true, f, (k : Int)) :=
  ⟨by decide, heapId_backpointers_correct_during_ingestion [[98], [97], [98]] (by decide)⟩

/-! ### The sift-down argument -/

theorem heapProp_root_max (l : List Wordt) (n : Nat) (hh : heapProp l n) :
    ∀ j, j < n → ¬ beats (hget l j) (hget l 0) := by
  intro j
  induction j using Nat.strong_induction_on with
  | _ j ih =>
    intro hj
    rcases Nat.eq_zero_or_pos j with rfl | hj0
    · exact beats_irrefl _
    · exact not_beats_trans (ih ((j - 1) / 2) (by omega) (by omega)) (hh j hj0 hj)

theorem take_set (l : List Wordt) (a m : Nat) (x : Wordt) (ha : a < m) :
    (l.set a x).take m = (l.take m).set a x := by
  apply List.ext_getElem?
  intro k
  rw [List.getElem?_take, List.getElem?_set, List.getElem?_set, List.getElem?_take]
  by_cases hak : a = k
  · subst hak
    rw [if_pos rfl, if_pos rfl, if_pos ha]
    simp only [List.length_take]
    by_cases hl : a < l.length
    · rw [if_pos hl, if_pos (by omega)]
    · rw [if_neg hl, if_neg (by omega)]
  · rw [if_neg hak, if_neg hak]

theorem hget_take (l : List Wordt) (k m : Nat) (h : k < m) :
    hget (l.take m) k = hget l k := by
  unfold hget
  rw [List.getD_eq_getElem?_getD, List.getD_eq_getElem?_getD, List.getElem?_take, if_pos h]

theorem hswap_take (l : List Wordt) (i j m : Nat) (hi : i < m) (hj : j < m) :
    (hswap l i j).take m = hswap (l.take m) i j := by
  unfold hswap
  rw [take_set _ _ _ _ hj, take_set _ _ _ _ hi, hget_take _ _ _ hj, hget_take _ _ _ hi]

theorem hswap_take_perm (l : List Wordt) (i j m : Nat) (hi : i < m) (hj : j < m)
    (hm : m ≤ l.length) :
    ((hswap l i j).take m).Perm (l.take m) := by
  rw [hswap_take l i j m hi hj]
  exact hswap_perm (l.take m) i j (by simp; omega) (by simp; omega)

theorem dMax_spec (l : List Wordt) (a b : Nat) :
    (dMax l a b = a ∨ dMax l a b = b) ∧
    ¬ beats (hget l b) (hget l (dMax l a b)) ∧
    ¬ beats (hget l a) (hget l (dMax l a b)) := by
  unfold dMax
  split
  · refine ⟨Or.inr rfl, beats_irrefl _, beats_asymm ?_⟩
    assumption
  · refine ⟨Or.inl rfl, ?_, beats_irrefl _⟩
    assumption

theorem dMax_eq_b (l : List Wordt) (a b : Nat) (h : dMax l a b = b) (hne : b ≠ a) :
    beats (hget l b) (hget l a) := by
  unfold dMax at h
  split at h
  · assumption
  · exact absurd h.symm hne

theorem siftDownInv_step (l : List Wordt) (m i mi : Nat)
    (hm : m < l.length) (hi : i < m) (hmi : mi < m)
    (hchild : mi = 2 * i + 1 ∨ mi = 2 * i + 2)
    (hmaxI : ¬ beats (hget l i) (hget l mi))
    (hmaxL : ¬ beats (hget l (2 * i + 1)) (hget l mi))
    (hmaxR : ¬ beats (hget l (2 * i + 2)) (hget l mi))
    (hinv : siftDownInv l m i) :
    siftDownInv (hswap l i mi) m mi := by
  have hgt : i < mi := by omega
  have hpmi : (mi - 1) / 2 = i := by omega
  have himl : i < l.length := by omega
  have hmil : mi < l.length := by omega
  have ei : hget (hswap l i mi) i = hget l mi := by
    rw [hget_hswap l i mi i himl hmil, if_neg (by omega), if_pos rfl]
  have emi : hget (hswap l i mi) mi = hget l i := by
    rw [hget_hswap l i mi mi himl hmil, if_pos rfl]
  have eo : ∀ k, k ≠ i → k ≠ mi → hget (hswap l i mi) k = hget l k := by
    intro k h1 h2
    rw [hget_hswap l i mi k himl hmil, if_neg h2, if_neg h1]
  constructor
  · intro j hj0 hjm hpj
    by_cases hji : j = i
    · subst hji
      rw [ei, eo ((j - 1) / 2) (by omega) (by omega)]
      exact hinv.2 hj0 mi (by omega) hmi hpmi
    · by_cases hjmi : j = mi
      · subst hjmi
        rw [emi, hpmi, ei]
        exact hmaxI
      · rw [eo j hji hjmi]
        by_cases hpji : (j - 1) / 2 = i
        · rw [hpji, ei]
          have hcase : j = 2 * i + 1 ∨ j = 2 * i + 2 := by omega
          rcases hcase with rfl | rfl
          · exact hmaxL
          · exact hmaxR
        · rw [eo ((j - 1) / 2) hpji hpj]
          exact hinv.1 j hj0 hjm hpji
  · intro hmi0 j hj0 hjm hpj
    have hjne_i : j ≠ i := by omega
    have hjne_mi : j ≠ mi := by omega
    rw [eo j hjne_i hjne_mi, hpmi, ei]
    have hh := hinv.1 j hj0 hjm (by rw [hpj]; omega)
    rw [hpj] at hh
    exact hh

theorem siftDownAux_spec :
    ∀ (fuel : Nat) (l : List Wordt) (m i : Nat),
      m + 1 - i ≤ fuel → m < l.length →
      ¬ beats (hget l m) (hget l i) →
      siftDownInv l m i →
      (siftDownAux fuel l m i).length = l.length ∧
      ((siftDownAux fuel l m i).take m).Perm (l.take m) ∧
      heapProp (siftDownAux fuel l m i) m
  | 0, l, m, i, hfuel, hm, hstale, hinv => by
    refine ⟨rfl, List.Perm.refl _, ?_⟩
    intro j hj0 hjm
    exact hinv.1 j hj0 hjm (by omega)
  | fuel + 1, l, m, i, hfuel, hm, hstale, hinv => by
    rw [siftDownAux]
    by_cases hg : 2 * i + 1 > m ∨ 2 * i + 2 > m
    · rw [if_pos hg]
      refine ⟨rfl, List.Perm.refl _, ?_⟩
      intro j hj0 hjm
      refine hinv.1 j hj0 hjm ?_
      rcases hg with h | h <;> omega
    · rw [if_neg hg]
      obtain ⟨hg1, hg2⟩ : 2 * i + 1 ≤ m ∧ 2 * i + 2 ≤ m := by
        rcases not_or.mp hg with ⟨h1, h2⟩
        omega
      obtain ⟨hc1, hb1L, hb1I⟩ := dMax_spec l i (2 * i + 1)
      obtain ⟨hc2, hb2R, hb2M⟩ := dMax_spec l (dMax l i (2 * i + 1)) (2 * i + 2)
      have hmaxI := not_beats_trans hb2M hb1I
      have hmaxL := not_beats_trans hb2M hb1L
      have hRb : dMax l (dMax l i (2 * i + 1)) (2 * i + 2) = 2 * i + 2 →
          beats (hget l (2 * i + 2)) (hget l (dMax l i (2 * i + 1))) := by
        intro h
        refine dMax_eq_b l _ _ h ?_
        rcases hc1 with h' | h' <;> omega
      by_cases hieq : i = dMax l (dMax l i (2 * i + 1)) (2 * i + 2)
      · rw [if_pos hieq]
        refine ⟨rfl, List.Perm.refl _, ?_⟩
        intro j hj0 hjm
        by_cases hpj : (j - 1) / 2 = i
        · have hcase : j = 2 * i + 1 ∨ j = 2 * i + 2 := by omega
          rw [hpj]
          rcases hcase with rfl | rfl
          · have hL := hmaxL
            rw [← hieq] at hL
            exact hL
          · have hR := hb2R
            rw [← hieq] at hR
            exact hR
        · exact hinv.1 j hj0 hjm hpj
      · rw [if_neg hieq]
        have hchild : dMax l (dMax l i (2 * i + 1)) (2 * i + 2) = 2 * i + 1 ∨
            dMax l (dMax l i (2 * i + 1)) (2 * i + 2) = 2 * i + 2 := by
          rcases hc2 with h | h
          · rcases hc1 with h' | h'
            · exact absurd (h.trans h').symm hieq
            · exact Or.inl (h.trans h')
          · exact Or.inr h
        have hmi_lt : dMax l (dMax l i (2 * i + 1)) (2 * i + 2) < m := by
          rcases hchild with h | h
          · omega
          · rcases Nat.lt_or_ge (2 * i + 2) m with hlt | hge
            · omega
            · have heqm : 2 * i + 2 = m := by omega
              exfalso
              have hbm := hRb h
              rcases hc1 with h' | h'
              · rw [h', heqm] at hbm
                exact hstale hbm
              · rw [h'] at hbm
                have hb2 : beats (hget l (2 * i + 1)) (hget l i) :=
                  dMax_eq_b l _ _ h' (by omega)
                rw [heqm] at hbm
                exact hstale (beats_trans hbm hb2)
        have hstep := siftDownInv_step l m i (dMax l (dMax l i (2 * i + 1)) (2 * i + 2))
          hm (by omega) hmi_lt hchild hmaxI hmaxL hb2R hinv
        have hstale' : ¬ beats
            (hget (hswap l i (dMax l (dMax l i (2 * i + 1)) (2 * i + 2))) m)
            (hget (hswap l i (dMax l (dMax l i (2 * i + 1)) (2 * i + 2)))
              (dMax l (dMax l i (2 * i + 1)) (2 * i + 2))) := by
          have e1 : hget (hswap l i (dMax l (dMax l i (2 * i + 1)) (2 * i + 2))) m
              = hget l m := by
            rw [hget_hswap l i _ m (by omega) (by omega), if_neg (by omega),
              if_neg (by omega)]
          have e2 : hget (hswap l i (dMax l (dMax l i (2 * i + 1)) (2 * i + 2)))
              (dMax l (dMax l i (2 * i + 1)) (2 * i + 2)) = hget l i := by
            rw [hget_hswap l i _ _ (by omega) (by omega), if_pos rfl]
          rw [e1, e2]
          exact hstale
        obtain ⟨ihlen, ihperm, ihheap⟩ := siftDownAux_spec fuel
          (hswap l i (dMax l (dMax l i (2 * i + 1)) (2 * i + 2))) m
          (dMax l (dMax l i (2 * i + 1)) (2 * i + 2))
          (by omega) (by rw [length_hswap]; exact hm) hstale' hstep
        refine ⟨by rw [ihlen, length_hswap], ?_, ihheap⟩
        exact ihperm.trans (hswap_take_perm l i _ m (by omega) hmi_lt (by omega))

theorem hget_eq_getElem (l : List Wordt) (k : Nat) (h : k < l.length) :
    hget l k = l[k] := by
  rw [hget_eq_get l ⟨k, h⟩]
  rfl

theorem mem_take_hget (l : List Wordt) (m : Nat) (x : Wordt) (hx : x ∈ l.take m) :
    ∃ j, j < m ∧ x = hget l j := by
  obtain ⟨n, hn⟩ := List.mem_iff_get.mp hx
  have hnm : n.1 < m := by
    have := n.2
    simp only [List.length_take] at this
    omega
  refine ⟨n.1, hnm, ?_⟩
  rw [← hget_eq_get (l.take m) n] at hn
  rw [← hn, hget_take l n.1 m hnm]

theorem extractTop_spec :
    ∀ (k : Nat) (s : S), s.size = k → s.size ≤ s.heap.length →
      heapProp s.heap s.size →
      ∃ out s', extractTop s k = .ok (out, s') ∧
        out.Perm (s.heap.take s.size) ∧
        List.Pairwise (fun a b => ¬ beats b a) out
  | 0, s, hk, hle, hh => by
    refine ⟨[], s, rfl, ?_, List.Pairwise.nil⟩
    rw [hk]
    exact List.Perm.refl _
  | k + 1, s, hk, hle, hh => by
    have hlen1 : k + 1 ≤ s.heap.length := by omega
    have hsz : ¬ s.size = 0 := by omega
    have hstep : extractMaxModel s = .ok (hget s.heap 0,
        S.mk s.root (siftDownL (s.heap.set 0 (hget s.heap (s.size - 1))) (s.size - 1) 0)
          (s.size - 1) s.totalWords s.uniqueOccurrences) := by
      rw [extractMaxModel, if_neg hsz]
    rw [hk] at hstep
    have hk1 : k + 1 - 1 = k := by omega
    rw [hk1] at hstep
    have hl1len : (s.heap.set 0 (hget s.heap k)).length = s.heap.length := by simp
    have hm : k < (s.heap.set 0 (hget s.heap k)).length := by
      rw [hl1len]
      omega
    have h0len : 0 < s.heap.length := by omega
    have hstale : ¬ beats (hget (s.heap.set 0 (hget s.heap k)) k)
        (hget (s.heap.set 0 (hget s.heap k)) 0) := by
      rcases Nat.eq_zero_or_pos k with rfl | hk0
      · exact beats_irrefl _
      · rw [hget_set_ne _ _ _ _ (by omega), hget_set_self _ _ _ h0len]
        exact beats_irrefl _
    have hinv : siftDownInv (s.heap.set 0 (hget s.heap k)) k 0 := by
      constructor
      · intro j hj0 hjk hpj
        rw [hget_set_ne _ _ _ _ (by omega), hget_set_ne _ _ _ _ (by omega)]
        exact hh j hj0 (by omega)
      · intro h0
        exact absurd h0 (by omega)
    obtain ⟨dlen, dperm, dheap⟩ := siftDownAux_spec (k + 1)
      (s.heap.set 0 (hget s.heap k)) k 0 (by omega) hm hstale hinv
    have hs1 : (siftDownL (s.heap.set 0 (hget s.heap k)) k 0)
        = siftDownAux (k + 1) (s.heap.set 0 (hget s.heap k)) k 0 := rfl
    obtain ⟨out, s', hrec, hperm, hsort⟩ := extractTop_spec k
      (S.mk s.root (siftDownL (s.heap.set 0 (hget s.heap k)) k 0) k
        s.totalWords s.uniqueOccurrences)
      rfl (by show k ≤ _; rw [hs1, dlen, hl1len]; omega)
      (by show heapProp _ k; rw [hs1]; exact dheap)
    refine ⟨hget s.heap 0 :: out, s', ?_, ?_, ?_⟩
    · simp only [extractTop, hstep, hrec]
    · -- permutation with the live region
      rw [hk]
      have hperm2 : out.Perm ((s.heap.set 0 (hget s.heap k)).take k) := by
        refine hperm.trans ?_
        show ((siftDownL (s.heap.set 0 (hget s.heap k)) k 0).take k).Perm _
        rw [hs1]
        exact dperm
      have htake : s.heap.take (k + 1) = s.heap.take k ++ [hget s.heap k] := by
        have hsome : s.heap[k]? = some (hget s.heap k) := by
          rw [List.getElem?_eq_getElem (show k < s.heap.length by omega)]
          exact congrArg some (hget_eq_getElem s.heap k (by omega)).symm
        rw [List.take_succ, hsome]
        rfl
      rcases Nat.eq_zero_or_pos k with rfl | hk0
      · have hout : out = [] := hperm2.eq_nil
        subst hout
        rw [htake]
        simp
      · have hset : ((s.heap.set 0 (hget s.heap k)).take k)
            = (s.heap.take k).set 0 (hget s.heap k) := take_set _ _ _ _ hk0
        rw [hset] at hperm2
        have hlentk : 0 < (s.heap.take k).length := by
          simp only [List.length_take]
          omega
        have p1 : ((s.heap.take k).set 0 (hget s.heap k)).Perm
            (hget s.heap k :: (s.heap.take k).eraseIdx 0) :=
          set_perm _ _ _ hlentk
        have p2 : (s.heap.take k).Perm
            (hget (s.heap.take k) 0 :: (s.heap.take k).eraseIdx 0) :=
          cons_eraseIdx_perm _ _ hlentk
        rw [hget_take s.heap 0 k hk0] at p2
        refine ((hperm2.trans p1).cons (hget s.heap 0)).trans ?_
        rw [htake]
        refine List.Perm.trans ?_ (List.perm_append_singleton _ _).symm
        exact (List.Perm.swap (hget s.heap k) (hget s.heap 0) _).trans (p2.symm.cons _)
    · -- sortedness
      refine List.Pairwise.cons ?_ hsort
      intro x hx
      have hx2 : x ∈ (s.heap.set 0 (hget s.heap k)).take k := by
        refine (hperm.trans ?_).subset hx
        rw [hs1]
        exact dperm
      obtain ⟨j, hj, rfl⟩ := mem_take_hget _ _ _ hx2
      rcases Nat.eq_zero_or_pos j with rfl | hj0
      · rw [hget_set_self _ _ _ h0len]
        exact heapProp_root_max s.heap s.size hh k (by omega)
      · rw [hget_set_ne _ _ _ _ (by omega)]
        exact heapProp_root_max s.heap s.size hh j (by omega)

theorem not_beats_flip {a b : Wordt} (h : ¬ beats b a) :
    b.frequency < a.frequency ∨
      (a.frequency = b.frequency ∧ a.occurredAt ≤ b.occurredAt) := by
  unfold beats at h
  omega

theorem tally_map_word_count (ps : List (List Int)) :
    (tally ps).map (fun x : List Int × Nat × Nat => (x.1, x.2.1))
      = (firstOccs ps).map fun u => (u, ps.count u) := by
  unfold tally
  rw [List.map_map]
  have h1 : ((fun x : List Int × Nat × Nat => (x.1, x.2.1)) ∘
      (fun p : Nat × List Int => (p.2, ps.count p.2, p.1)))
      = (fun u : List Int => (u, ps.count u)) ∘ Prod.snd := rfl
  rw [h1, ← List.map_map, List.enum_map_snd]

/-- C1: ingesting any sequence of alphabet tokens and then extracting all
distinct tokens (K = `uniqueOccurrences`) yields a sequence sorted by
(frequency desc, first-occurrence rank asc) that is a permutation of the
distinct tokens, each paired with its total frequency. -/
theorem extract_all_sorted_perm (ws : List (List Int)) (hv : ∀ w ∈ ws, validTok w) :
    ∃ s out s', ingestAll initS ws = .ok s ∧
      extractTop s s.uniqueOccurrences = .ok (out, s') ∧
      List.Pairwise (fun a b => b.frequency < a.frequency ∨
        (a.frequency = b.frequency ∧ a.occurredAt ≤ b.occurredAt)) out ∧
      (out.map fun e => (e.word, e.frequency)).Perm
        (ws.dedup.map fun w => (w, ws.count w)) := by
  obtain ⟨s, hing, hinv⟩ := ingestAll_initS_inv ws hv
  have huos : s.size = s.uniqueOccurrences := by rw [hinv.huo, ← hinv.hsize]
  obtain ⟨out, s', hext, hperm, hsort⟩ := extractTop_spec s.uniqueOccurrences s huos
    (le_of_eq hinv.hlen.symm) hinv.hheap
  refine ⟨s, out, s', hing, hext, hsort.imp not_beats_flip, ?_⟩
  have htake : s.heap.take s.size = s.heap := by
    rw [← hinv.hlen]
    exact List.take_length s.heap
  rw [htake] at hperm
  have h1 := hperm.map (fun e : Wordt => (e.word, e.frequency))
  have h2 := hinv.hdata.map (fun x : List Int × Nat × Nat => (x.1, x.2.1))
  rw [List.map_map] at h2
  have hcomp : ((fun x : List Int × Nat × Nat => (x.1, x.2.1)) ∘
      (fun e : Wordt => (e.word, e.frequency, e.occurredAt)))
      = fun e : Wordt => (e.word, e.frequency) := rfl
  rw [hcomp, tally_map_word_count] at h2
  have h3 := (firstOccs_perm_dedup ws).map (fun u : List Int => (u, ws.count u))
  exact h1.trans (h2.trans h3)

/-- Witness for C1 at the concrete token sequence b, a, b. -/
theorem extract_all_sorted_perm_witness :
    (∀ w ∈ [[98], [97], [98]], validTok w) ∧
    ∃ s out s', ingestAll initS [[98], [97], [98]] = .ok s ∧
      extractTop s s.uniqueOccurrences = .ok (out, s') ∧
      List.Pairwise (fun a b => b.frequency < a.frequency ∨
        (a.frequency = b.frequency ∧ a.occurredAt ≤ b.occurredAt)) out ∧
      (out.map fun e => (e.word, e.frequency)).Perm
        ([[98], [97], [98]].dedup.map fun w => (w, [[98], [97], [98]].count w)) :=
  ⟨by decide, extract_all_sorted_perm [[98], [97], [98]] (by decide)⟩
